import Mathlib

/-!
# Open-addressing associative array (aalib)

A shallow embedding of `src/aalib/hash-functions.c` and `src/aalib/hash-table.c`.

Conventions of the embedding.

* A key (`AAKeyType key`, `size_t keylen`) is a list of byte values together with the
  length argument; the bytes the C code reads are `key[0 .. keylen)`.
* A `void *` value is the natural number of its address; `NULL` is `0`.
* `int` indices are `Int`; the sentinel is `-1`. The C operator `%` on them is `Int.tmod`.
  Index arithmetic is exact: table sizes come from `getLargerPrime`, which knows primes
  below 5000 only, so no sum or product of indices leaves the range of `int`. The local
  step counters `cost` and `nEntries` are exact naturals as well.
* The fields `insertCost`, `searchCost` and `deleteCost` are `int`s of 32 bits, and `+=` on
  them is `intAdd`: the sum reduced to the range of `int` by two's complement wraparound.
* `HashIndex`, whose typedef is in the missing header `hashtools.h`, is an unsigned type
  of `w` bits; `w` is a parameter of everything that hashes.
* A read of `table[index]` is partial: outside `[0, length)` the operation stops with
  `Outcome.outOfBounds index`.
* `while` loops whose exit is not bounded by a counter take a fuel argument, one unit per
  evaluation of the loop condition or per slot examined; running out of fuel is
  `Outcome.outOfFuel`.
* Probe functions return, next to their C result and the updated `*cost`, the list of the
  slot indices they read (a ghost trace).
-/

namespace AALib

/-! ## Data model -/

/-- Modelled from the spec: `hashtools.h` with the validity constants is not among the
sources. The spec names exactly three slot states, and a slot zeroed by `memset` is
`HASH_EMPTY`. -/
inductive Validity where
  | HASH_EMPTY
  | HASH_USED
  | HASH_DELETED
  deriving DecidableEq, Repr

/-- Key bytes as handed over by a caller (`AAKeyType`). -/
abbrev AAKeyType := List Nat

/-- One slot of the table (`KeyDataPair`). -/
structure KeyDataPair where
  key : AAKeyType
  keylen : Nat
  value : Nat
  validity : Validity
  deriving DecidableEq, Repr

/-- The hash functions a table can point to (`HashAlgorithm` function pointers; the only
values `lookupNamedHashStrategy` returns). -/
inductive HashAlgorithm where
  | hashBySum
  | hashByLength
  | newHash
  deriving DecidableEq, Repr

/-- The probe functions a table can point to (`HashProbe` function pointers; the only
values `lookupNamedProbingStrategy` returns). -/
inductive HashProbe where
  | linearProbe
  | quadraticProbe
  | doubleHashProbe
  deriving DecidableEq, Repr

/-- The table record (`AssociativeArray`); the duplicated strategy names, used only for
printing, are left out. The three cost counters are C `int`s. -/
structure AssociativeArray where
  hashAlgorithmPrimary : HashAlgorithm
  hashAlgorithmSecondary : HashAlgorithm
  hashProbe : HashProbe
  size : Nat
  table : List KeyDataPair
  nEntries : Nat
  insertCost : Int
  searchCost : Int
  deleteCost : Int
  deriving DecidableEq, Repr

/-- The largest value of an `int` of 32 bits. -/
def INT_MAX : Int := 2147483647

/-- The smallest value of an `int` of 32 bits. -/
def INT_MIN : Int := -2147483648

/-- The value an `int` of 32 bits holds after `a += b`: the sum, reduced to the range
`INT_MIN .. INT_MAX` by two's complement wraparound. -/
def intAdd (a b : Int) : Int :=
  (a + b + 2147483648) % 4294967296 - 2147483648

/-- Result of running a piece of the C code. -/
inductive Outcome (α : Type) where
  | ok (result : α)
  | outOfBounds (index : Int)
  | outOfFuel
  deriving DecidableEq, Repr

/-- The read `table[index]`. -/
def slotAt (table : List KeyDataPair) (index : Int) : Option KeyDataPair :=
  if 0 ≤ index then table[index.toNat]? else none

/-- A slot as `memset(..., 0, ...)` leaves it. -/
def zeroSlot : KeyDataPair :=
  { key := [], keylen := 0, value := 0, validity := Validity.HASH_EMPTY }

/-! ## hash-functions.c -/

/-- `doKeysMatch`: lengths first, then `memcmp` over `key1len` bytes. -/
def doKeysMatch (key1 : AAKeyType) (key1len : Nat) (key2 : AAKeyType) (key2len : Nat) : Bool :=
  if key1len ≠ key2len then false
  else key1.take key1len == key2.take key1len

/-- `hashByLength`. -/
def hashByLength (_key : AAKeyType) (keyLength : Nat) (size : Nat) : Nat :=
  keyLength % size

/-- `hashBySum`; `w` is the bit width of the unsigned index type `HashIndex`, whose
typedef is in the missing header. -/
def hashBySum (w : Nat) (key : AAKeyType) (keyLength : Nat) (size : Nat) : Nat :=
  ((List.range keyLength).foldl (fun sum i => (sum + key.getD i 0) % 2 ^ w) 0) % size

/-- One round of the loop body of `newHash`, every operation wrapping at `2 ^ w`. -/
def newHashStep (w : Nat) (hashValue : Nat) (b : Nat) : Nat :=
  ((((hashValue <<< 5) % 2 ^ w + hashValue) % 2 ^ w + b % 2 ^ w) % 2 ^ w + b % 2 ^ w) % 2 ^ w

/-- `newHash`. -/
def newHash (w : Nat) (key : AAKeyType) (keyLength : Nat) (size : Nat) : Nat :=
  ((List.range keyLength).foldl (fun hashValue i => newHashStep w hashValue (key.getD i 0))
    (4099 % 2 ^ w)) % size

/-- Call through a `HashAlgorithm` pointer. -/
def applyHash (w : Nat) (h : HashAlgorithm) (key : AAKeyType) (keyLength : Nat) (size : Nat) : Nat :=
  match h with
  | HashAlgorithm.hashBySum => hashBySum w key keyLength size
  | HashAlgorithm.hashByLength => hashByLength key keyLength size
  | HashAlgorithm.newHash => newHash w key keyLength size

/-- What a probe call leaves behind: the returned index, `*cost`, and the slots read. -/
structure ProbeResult where
  index : Int
  cost : Nat
  visited : List Int
  deriving DecidableEq, Repr

/-- The `while (1)` loop of `linearProbe`. -/
def linearProbeLoop (hashTable : AssociativeArray) (invalidEndsSearch : Bool) (initialIndex : Int) :
    Nat → Int → Nat → List Int → Outcome ProbeResult
  | 0, _, _, _ => Outcome.outOfFuel
  | fuel + 1, index, cost, visited =>
    match slotAt hashTable.table index with
    | none => Outcome.outOfBounds index
    | some slot =>
      if slot.validity ≠ Validity.HASH_USED then
        Outcome.ok { index := index, cost := cost, visited := visited ++ [index] }
      else if invalidEndsSearch && slot.validity == Validity.HASH_DELETED then
        Outcome.ok { index := -1, cost := cost, visited := visited ++ [index] }
      else
        let index1 := Int.tmod (index + 1) hashTable.size
        let cost1 := cost + 1
        if index1 = initialIndex then
          Outcome.ok { index := -1, cost := cost1, visited := visited ++ [index] }
        else
          linearProbeLoop hashTable invalidEndsSearch initialIndex fuel index1 cost1
            (visited ++ [index])

/-- `linearProbe`. -/
def linearProbe (fuel : Nat) (hashTable : AssociativeArray) (_key : AAKeyType) (_keylength : Nat)
    (index : Int) (invalidEndsSearch : Bool) (cost : Nat) : Outcome ProbeResult :=
  linearProbeLoop hashTable invalidEndsSearch index fuel index cost []

/-- The `for` loop of `quadraticProbe`; the first argument counts the rounds left
(`hashSize - i`). -/
def quadraticProbeLoop (hashTable : AssociativeArray) (startIndex : Int) (hashSize : Int) :
    Nat → Int → Nat → List Int → Outcome ProbeResult
  | 0, _, cost, visited => Outcome.ok { index := -1, cost := cost, visited := visited }
  | rounds + 1, probingIndex, cost, visited =>
    let probingIndex1 := probingIndex + 1
    let iterativeIndex := Int.tmod (startIndex + probingIndex1 * probingIndex1) hashSize
    match slotAt hashTable.table iterativeIndex with
    | none => Outcome.outOfBounds iterativeIndex
    | some slot =>
      if slot.validity = Validity.HASH_EMPTY ∨ slot.validity = Validity.HASH_DELETED then
        Outcome.ok { index := iterativeIndex, cost := cost, visited := visited ++ [iterativeIndex] }
      else
        quadraticProbeLoop hashTable startIndex hashSize rounds probingIndex1 (cost + 1)
          (visited ++ [iterativeIndex])

/-- `quadraticProbe`. -/
def quadraticProbe (hashTable : AssociativeArray) (_key : AAKeyType) (_keylen : Nat)
    (startIndex : Int) (_invalidEndsSearch : Bool) (cost : Nat) : Outcome ProbeResult :=
  quadraticProbeLoop hashTable startIndex hashTable.size hashTable.size 0 cost []

/-- The `while (probeCount < size)` loop of `doubleHashProbe`; the first argument counts
the rounds left (`size - probeCount`). -/
def doubleHashProbeLoop (hashTable : AssociativeArray) (invalidEndsSearch : Bool) (stepSize : Nat) :
    Nat → Int → Nat → List Int → Outcome ProbeResult
  | 0, _, cost, visited => Outcome.ok { index := -1, cost := cost, visited := visited }
  | rounds + 1, index, cost, visited =>
    match slotAt hashTable.table index with
    | none => Outcome.outOfBounds index
    | some slot =>
      if slot.validity ≠ Validity.HASH_USED then
        Outcome.ok { index := index, cost := cost, visited := visited ++ [index] }
      else if invalidEndsSearch && slot.validity == Validity.HASH_DELETED then
        Outcome.ok { index := -1, cost := cost, visited := visited ++ [index] }
      else
        doubleHashProbeLoop hashTable invalidEndsSearch stepSize rounds
          (Int.tmod (index + stepSize) hashTable.size) (cost + 1) (visited ++ [index])

/-- `doubleHashProbe`. -/
def doubleHashProbe (w : Nat) (hashTable : AssociativeArray) (key : AAKeyType) (keylen : Nat)
    (startIndex : Int) (invalidEndsSearch : Bool) (cost : Nat) : Outcome ProbeResult :=
  let stepSize := applyHash w hashTable.hashAlgorithmSecondary key keylen hashTable.size
  doubleHashProbeLoop hashTable invalidEndsSearch stepSize hashTable.size startIndex cost []

/-- Call through a `HashProbe` pointer. -/
def applyProbe (w fuel : Nat) (p : HashProbe) (hashTable : AssociativeArray) (key : AAKeyType)
    (keylen : Nat) (index : Int) (invalidEndsSearch : Bool) (cost : Nat) : Outcome ProbeResult :=
  match p with
  | HashProbe.linearProbe => linearProbe fuel hashTable key keylen index invalidEndsSearch cost
  | HashProbe.quadraticProbe => quadraticProbe hashTable key keylen index invalidEndsSearch cost
  | HashProbe.doubleHashProbe => doubleHashProbe w hashTable key keylen index invalidEndsSearch cost

/-! ## hash-table.c -/

/-- `lookupNamedHashStrategy`: `strncmp` over the first three characters. -/
def lookupNamedHashStrategy (name : String) : HashAlgorithm :=
  if name.data.take 3 = ['s', 'u', 'm'] then HashAlgorithm.hashBySum
  else if name.data.take 3 = ['l', 'e', 'n'] then HashAlgorithm.hashByLength
  else if name.data.take 3 = ['n', 'e', 'w'] then HashAlgorithm.newHash
  else HashAlgorithm.hashBySum

/-- `lookupNamedProbingStrategy`: `strncmp` over the first three characters. -/
def lookupNamedProbingStrategy (name : String) : HashProbe :=
  if name.data.take 3 = ['l', 'i', 'n'] then HashProbe.linearProbe
  else if name.data.take 3 = ['q', 'u', 'a'] then HashProbe.quadraticProbe
  else if name.data.take 3 = ['d', 'o', 'u'] then HashProbe.doubleHashProbe
  else HashProbe.linearProbe

/-- `aaCreateAssociativeArray`; `getLargerPrime` is an external collaborator and is a
parameter here. `none` is the `NULL` return. -/
def aaCreateAssociativeArray (getLargerPrime : Nat → Int) (size : Nat) (probingStrategy : String)
    (hashPrimary : String) (hashSecondary : String) : Option AssociativeArray :=
  let newSize := getLargerPrime size
  if newSize < 1 then none
  else some
    { hashAlgorithmPrimary := lookupNamedHashStrategy hashPrimary
      hashAlgorithmSecondary := lookupNamedHashStrategy hashSecondary
      hashProbe := lookupNamedProbingStrategy probingStrategy
      size := newSize.toNat
      table := List.replicate newSize.toNat zeroSlot
      nEntries := 0
      insertCost := 0
      searchCost := 0
      deleteCost := 0 }

/-- One recorded call of the user function of `aaIterateAction`. -/
structure Invocation where
  key : AAKeyType
  keylen : Nat
  datavalue : Nat
  deriving DecidableEq, Repr

/-- The `for` loop of `aaIterateAction`; the first argument counts the rounds left
(`size - i`). The user function reads and updates `userdata`. The result carries the
returned `int`, the final `userdata` and the calls made, in order. -/
def aaIterateActionLoop {σ : Type} (aarray : AssociativeArray)
    (userfunction : AAKeyType → Nat → Nat → σ → Int × σ) :
    Nat → Int → σ → List Invocation → Outcome (Int × σ × List Invocation)
  | 0, _, userdata, calls => Outcome.ok (1, userdata, calls)
  | rounds + 1, i, userdata, calls =>
    match slotAt aarray.table i with
    | none => Outcome.outOfBounds i
    | some slot =>
      if slot.validity = Validity.HASH_USED then
        let r := userfunction slot.key slot.keylen slot.value userdata
        let calls1 := calls ++ [{ key := slot.key, keylen := slot.keylen, datavalue := slot.value }]
        if r.1 < 0 then Outcome.ok (-1, r.2, calls1)
        else aaIterateActionLoop aarray userfunction rounds (i + 1) r.2 calls1
      else aaIterateActionLoop aarray userfunction rounds (i + 1) userdata calls

/-- `aaIterateAction`. -/
def aaIterateAction {σ : Type} (aarray : AssociativeArray)
    (userfunction : AAKeyType → Nat → Nat → σ → Int × σ) (userdata : σ) :
    Outcome (Int × σ × List Invocation) :=
  aaIterateActionLoop aarray userfunction aarray.size 0 userdata []

/-- The `while` loop of `aaInsert` and the code after it. The loop never changes `index`. -/
def aaInsertLoop (aarray : AssociativeArray) (key : AAKeyType) (keylen : Nat) (value : Nat)
    (index : Int) : Nat → Nat → Outcome (Int × AssociativeArray)
  | 0, _ => Outcome.outOfFuel
  | fuel + 1, cost =>
    match slotAt aarray.table index with
    | none => Outcome.outOfBounds index
    | some slot =>
      if slot.validity = Validity.HASH_USED then
        if doKeysMatch key keylen slot.key slot.keylen then
          Outcome.ok (index,
            { aarray with table := aarray.table.set index.toNat { slot with value := value } })
        else aaInsertLoop aarray key keylen value index fuel (cost + 1)
      else
        Outcome.ok (index,
          { aarray with
            table := aarray.table.set index.toNat
              { key := key.take keylen, keylen := keylen, value := value,
                validity := Validity.HASH_USED }
            insertCost := intAdd aarray.insertCost (cost : Int)
            nEntries := aarray.nEntries + 1 })

/-- `aaInsert`: the returned index and the table afterwards. -/
def aaInsert (w fuel : Nat) (aarray : AssociativeArray) (key : AAKeyType) (keylen : Nat)
    (value : Nat) : Outcome (Int × AssociativeArray) :=
  let invalidEndsSearch := false
  let cost := 0
  let size := aarray.size
  let index : Int := applyHash w aarray.hashAlgorithmPrimary key keylen size
  match applyProbe w fuel aarray.hashProbe aarray key keylen index invalidEndsSearch cost with
  | Outcome.ok r => aaInsertLoop aarray key keylen value r.index fuel r.cost
  | Outcome.outOfBounds i => Outcome.outOfBounds i
  | Outcome.outOfFuel => Outcome.outOfFuel

/-- The `for` loop of `aaLookup`; the first argument counts the rounds left (`size - i`).
Every round reads the same slot `initIndex`. -/
def aaLookupLoop (aarray : AssociativeArray) (key : AAKeyType) (keylen : Nat) (initIndex : Int) :
    Nat → Nat → Outcome (Nat × AssociativeArray)
  | 0, cost => Outcome.ok (0, { aarray with searchCost := intAdd aarray.searchCost (cost : Int) })
  | rounds + 1, cost =>
    match slotAt aarray.table initIndex with
    | none => Outcome.outOfBounds initIndex
    | some slot =>
      if doKeysMatch key keylen slot.key slot.keylen then
        Outcome.ok (slot.value,
          { aarray with searchCost := intAdd aarray.searchCost ((cost + 1 : Nat) : Int) })
      else aaLookupLoop aarray key keylen initIndex rounds (cost + 1)

/-- `aaLookup`: the returned pointer (`0` is `NULL`) and the table afterwards. -/
def aaLookup (w : Nat) (aarray : AssociativeArray) (key : AAKeyType) (keylen : Nat) :
    Outcome (Nat × AssociativeArray) :=
  let size := aarray.size
  let initIndex : Int := applyHash w aarray.hashAlgorithmPrimary key keylen size
  aaLookupLoop aarray key keylen initIndex size 0

/-- The `while` loop of `aaDelete` and the code after it. -/
def aaDeleteLoop (aarray : AssociativeArray) (key : AAKeyType) (keylen : Nat) (size : Nat) :
    Nat → Int → Nat → Outcome (Nat × AssociativeArray)
  | 0, _, _ => Outcome.outOfFuel
  | fuel + 1, index, cost =>
    match slotAt aarray.table index with
    | none => Outcome.outOfBounds index
    | some slot =>
      if slot.validity = Validity.HASH_USED then
        let cost1 := cost + 1
        if doKeysMatch key keylen slot.key slot.keylen then
          Outcome.ok (slot.value,
            { aarray with
              table := aarray.table.set index.toNat
                { slot with validity := Validity.HASH_DELETED }
              deleteCost := intAdd aarray.deleteCost (cost1 : Int) })
        else aaDeleteLoop aarray key keylen size fuel (Int.tmod (index + 1) size) cost1
      else Outcome.ok (0, { aarray with deleteCost := intAdd aarray.deleteCost (cost : Int) })

/-- `aaDelete`: the returned pointer (`0` is `NULL`) and the table afterwards. -/
def aaDelete (w fuel : Nat) (aarray : AssociativeArray) (key : AAKeyType) (keylen : Nat) :
    Outcome (Nat × AssociativeArray) :=
  let size := aarray.size
  let index : Int := applyHash w aarray.hashAlgorithmPrimary key keylen size
  aaDeleteLoop aarray key keylen size fuel index 0

/-! ## Predicates and specification-side definitions -/

/-- A table as `aaCreateAssociativeArray` builds it and the operations keep it: at least
one slot, and `size` slots in the array. -/
def WellFormed (aarray : AssociativeArray) : Prop :=
  1 ≤ aarray.size ∧ aarray.table.length = aarray.size

instance (aarray : AssociativeArray) : Decidable (WellFormed aarray) := by
  unfold WellFormed; infer_instance

/-- What a bounded probe leaves behind: at most `n` slots read, all inside `[0, n)`, and
a result that is `-1` or inside `[0, n)`. -/
def ProbeBounded (n : Nat) (r : ProbeResult) : Prop :=
  r.visited.length ≤ n ∧ (∀ i ∈ r.visited, 0 ≤ i ∧ i < (n : Int)) ∧
    (r.index = -1 ∨ (0 ≤ r.index ∧ r.index < (n : Int)))

/-- Number of slots whose validity is `HASH_USED`. -/
def usedCount (table : List KeyDataPair) : Nat :=
  table.countP (fun slot => slot.validity = Validity.HASH_USED)

/-- Number of `HASH_USED` slots that hold the given (bytes, length) key. -/
def usedCopies (table : List KeyDataPair) (key : AAKeyType) (keylen : Nat) : Nat :=
  table.countP (fun slot => slot.validity = Validity.HASH_USED ∧
    doKeysMatch key keylen slot.key slot.keylen)

/-- The call `aaIterateAction` makes for a slot. -/
def invocationOf (slot : KeyDataPair) : Invocation :=
  { key := slot.key, keylen := slot.keylen, datavalue := slot.value }

/-- Spec side of `aaIterateAction`: the (key, length, value) triples of the `HASH_USED`
slots, in ascending slot order. -/
def usedInvocations (table : List KeyDataPair) : List Invocation :=
  (table.filter (fun slot => slot.validity = Validity.HASH_USED)).map invocationOf

/-- Spec side of `aaIterateAction`: the user function is called on the given triples in
order and the traversal is cut off immediately after the first call whose result is
negative; the result is `-1` if some call was negative and `1` otherwise, with the final
`userdata` and the calls made. -/
def callUntilNegative {σ : Type} (userfunction : AAKeyType → Nat → Nat → σ → Int × σ) :
    List Invocation → σ → Int × σ × List Invocation
  | [], userdata => (1, userdata, [])
  | c :: rest, userdata =>
    let r := userfunction c.key c.keylen c.datavalue userdata
    if r.1 < 0 then (-1, r.2, [c])
    else
      let later := callUntilNegative userfunction rest r.2
      (later.1, later.2.1, c :: later.2.2)

/-! ## Scenario data -/

/-- The bytes of "cat". -/
def keyCat : AAKeyType := [99, 97, 116]

/-- The bytes of "dog". -/
def keyDog : AAKeyType := [100, 111, 103]

/-- The bytes of "a". -/
def keyA : AAKeyType := [97]

/-- The bytes of "b". -/
def keyB : AAKeyType := [98]

/-- The bytes of "c". -/
def keyC : AAKeyType := [99]

/-- A sizing collaborator for the scenarios: it knows the primes 2 and 11 only and
answers `-1` beyond them. -/
def smallPrimes (n : Nat) : Int :=
  if n ≤ 2 then 2 else if n ≤ 11 then 11 else -1

/-- A table of size 2 with length hash, sum hash as the secondary one, and the given
probe and slots. -/
def tableOfTwo (probe : HashProbe) (slot0 slot1 : KeyDataPair) (nEntries : Nat)
    (insertCost : Int) :
    AssociativeArray :=
  { hashAlgorithmPrimary := HashAlgorithm.hashByLength
    hashAlgorithmSecondary := HashAlgorithm.hashBySum
    hashProbe := probe
    size := 2
    table := [slot0, slot1]
    nEntries := nEntries
    insertCost := insertCost
    searchCost := 0
    deleteCost := 0 }

/-- The table of size 2 with both slots in use: "b" in slot 0 and "a" in slot 1. -/
def fullTable : AssociativeArray :=
  tableOfTwo HashProbe.linearProbe
    { key := [98], keylen := 1, value := 2, validity := Validity.HASH_USED }
    { key := [97], keylen := 1, value := 1, validity := Validity.HASH_USED } 2 1

/-- The table of size 2 that holds the key "a" twice: value 2 in slot 0, value 1 in the
home slot 1. -/
def twiceATable : AssociativeArray :=
  tableOfTwo HashProbe.linearProbe
    { key := [97], keylen := 1, value := 2, validity := Validity.HASH_USED }
    { key := [97], keylen := 1, value := 1, validity := Validity.HASH_USED } 2 1

/-- The table `twiceATable` after `aaDelete` of "a": the home slot 1 is a tombstone. -/
def twiceAAfterDelete : AssociativeArray :=
  { tableOfTwo HashProbe.linearProbe
      { key := [97], keylen := 1, value := 2, validity := Validity.HASH_USED }
      { key := [97], keylen := 1, value := 1, validity := Validity.HASH_DELETED } 2 1 with
    deleteCost := 1 }

/-- A table of size 5 with three slots in use, one tombstone and one empty slot. -/
def mixedTable : AssociativeArray :=
  { hashAlgorithmPrimary := HashAlgorithm.hashBySum
    hashAlgorithmSecondary := HashAlgorithm.hashBySum
    hashProbe := HashProbe.linearProbe
    size := 5
    table := [{ key := [98], keylen := 1, value := 20, validity := Validity.HASH_USED },
              { key := [99], keylen := 1, value := 30, validity := Validity.HASH_DELETED },
              { key := [97], keylen := 1, value := 10, validity := Validity.HASH_USED },
              zeroSlot,
              { key := [101], keylen := 1, value := 50, validity := Validity.HASH_USED }]
    nEntries := 4
    insertCost := 1
    searchCost := 0
    deleteCost := 1 }

/-- A user function that counts its calls in `userdata` and never fails. -/
def countCalls (_key : AAKeyType) (_keylen : Nat) (_datavalue : Nat) (userdata : Nat) : Int × Nat :=
  (0, userdata + 1)

/-- A user function that counts its calls in `userdata` and fails on the value 10. -/
def stopAtTen (_key : AAKeyType) (_keylen : Nat) (datavalue : Nat) (userdata : Nat) : Int × Nat :=
  (if datavalue = 10 then -1 else 0, userdata + 1)

/-! ## Sequences of calls -/

/-- One call of the table interface. -/
inductive Operation where
  | insert (key : AAKeyType) (keylen : Nat) (value : Nat)
  | lookup (key : AAKeyType) (keylen : Nat)
  | delete (key : AAKeyType) (keylen : Nat)
  deriving DecidableEq, Repr

/-- The table a call leaves behind; the value the call returns is dropped. -/
def applyOperation (w fuel : Nat) (aarray : AssociativeArray) : Operation → Outcome AssociativeArray
  | Operation.insert key keylen value =>
    match aaInsert w fuel aarray key keylen value with
    | Outcome.ok r => Outcome.ok r.2
    | Outcome.outOfBounds i => Outcome.outOfBounds i
    | Outcome.outOfFuel => Outcome.outOfFuel
  | Operation.lookup key keylen =>
    match aaLookup w aarray key keylen with
    | Outcome.ok r => Outcome.ok r.2
    | Outcome.outOfBounds i => Outcome.outOfBounds i
    | Outcome.outOfFuel => Outcome.outOfFuel
  | Operation.delete key keylen =>
    match aaDelete w fuel aarray key keylen with
    | Outcome.ok r => Outcome.ok r.2
    | Outcome.outOfBounds i => Outcome.outOfBounds i
    | Outcome.outOfFuel => Outcome.outOfFuel

/-- The table a sequence of calls leaves behind, each call with the same fuel. -/
def runOperations (w fuel : Nat) : AssociativeArray → List Operation → Outcome AssociativeArray
  | aarray, [] => Outcome.ok aarray
  | aarray, op :: ops =>
    match applyOperation w fuel aarray op with
    | Outcome.ok t1 => runOperations w fuel t1 ops
    | Outcome.outOfBounds i => Outcome.outOfBounds i
    | Outcome.outOfFuel => Outcome.outOfFuel

/-- The counters a call of the given kind must leave alone are the same in both tables. -/
def foreignCostsKept (op : Operation) (before after : AssociativeArray) : Prop :=
  match op with
  | Operation.insert _ _ _ =>
    after.searchCost = before.searchCost ∧ after.deleteCost = before.deleteCost
  | Operation.lookup _ _ =>
    after.insertCost = before.insertCost ∧ after.deleteCost = before.deleteCost
  | Operation.delete _ _ =>
    after.insertCost = before.insertCost ∧ after.searchCost = before.searchCost

/-! ## Slot states along a probe sequence -/

/-- Whether slot `i` exists and is `HASH_USED`. -/
def isUsed (table : List KeyDataPair) (i : Nat) : Bool :=
  match slotAt table (i : Int) with
  | some slot => decide (slot.validity = Validity.HASH_USED)
  | none => false

/-- Whether slot `i` exists and is `HASH_EMPTY` or `HASH_DELETED`. -/
def isFree (table : List KeyDataPair) (i : Nat) : Bool :=
  match slotAt table (i : Int) with
  | some slot =>
    decide (slot.validity = Validity.HASH_EMPTY ∨ slot.validity = Validity.HASH_DELETED)
  | none => false

/-- Spec side of `newHash`: the accumulator starts at 4099 and takes in each byte `b` as
`(acc * 33 + 2 * b) mod 2 ^ w`. -/
def polynomialAccumulator (w : Nat) (bytes : List Nat) : Nat :=
  bytes.foldl (fun acc b => (acc * 33 + 2 * b) % 2 ^ w) 4099

/-- The first `keyLength` bytes of a key buffer, as the hash loops read them. -/
def keyBytes (key : AAKeyType) (keyLength : Nat) : List Nat :=
  (List.range keyLength).map (fun i => key.getD i 0)

/-- A table of size 11 with length hash as the secondary hash, in which slots 1, 4 and 7
are in use and every other slot is empty. -/
def stepThreeTable : AssociativeArray :=
  { hashAlgorithmPrimary := HashAlgorithm.hashBySum
    hashAlgorithmSecondary := HashAlgorithm.hashByLength
    hashProbe := HashProbe.doubleHashProbe
    size := 11
    table := [zeroSlot,
              { key := [1], keylen := 1, value := 10, validity := Validity.HASH_USED },
              zeroSlot, zeroSlot,
              { key := [4], keylen := 1, value := 40, validity := Validity.HASH_USED },
              zeroSlot, zeroSlot,
              { key := [7], keylen := 1, value := 70, validity := Validity.HASH_USED },
              zeroSlot, zeroSlot, zeroSlot]
    nEntries := 3
    insertCost := 0
    searchCost := 0
    deleteCost := 0 }

/-! ## Cost counters as C ints -/

/-- The three cost counters hold values of an `int` of 32 bits. -/
def CostsInRange (aarray : AssociativeArray) : Prop :=
  (INT_MIN ≤ aarray.insertCost ∧ aarray.insertCost ≤ INT_MAX) ∧
  (INT_MIN ≤ aarray.searchCost ∧ aarray.searchCost ≤ INT_MAX) ∧
  (INT_MIN ≤ aarray.deleteCost ∧ aarray.deleteCost ≤ INT_MAX)

instance (aarray : AssociativeArray) : Decidable (CostsInRange aarray) := by
  unfold CostsInRange; infer_instance

/-- The table of size 2 as `aaCreateAssociativeArray` leaves it, with linear probing and
length hash. -/
def freshTable : AssociativeArray :=
  tableOfTwo HashProbe.linearProbe zeroSlot zeroSlot 0 0

/-- The full table of size 2 with `searchCost` at `INT_MAX`. -/
def fullTableAtMax : AssociativeArray :=
  { fullTable with searchCost := 2147483647 }

/-! ## Lemmas on slots and loops -/
theorem slotAt_eq_some {table : List KeyDataPair} {index : Int} {slot : KeyDataPair}
    (h : slotAt table index = some slot) :
    0 ≤ index ∧ index.toNat < table.length ∧ table[index.toNat]? = some slot := by
  unfold slotAt at h
  split at h
  · rename_i h0
    refine ⟨h0, ?_, h⟩
    by_contra hlt
    rw [List.getElem?_eq_none (by omega)] at h
    exact Option.noConfusion h
  · exact Option.noConfusion h

theorem slotAt_set_self {table : List KeyDataPair} {index : Int} {slot : KeyDataPair}
    (h : slotAt table index = some slot) (slot1 : KeyDataPair) :
    slotAt (table.set index.toNat slot1) index = some slot1 := by
  obtain ⟨h0, hlt, _⟩ := slotAt_eq_some h
  simp [slotAt, h0, List.getElem?_set, hlt]

theorem slotAt_set_other {table : List KeyDataPair} {i j : Int} (hi : 0 ≤ i) (hj : 0 ≤ j)
    (hne : i ≠ j) (slot1 : KeyDataPair) :
    slotAt (table.set i.toNat slot1) j = slotAt table j := by
  have : i.toNat ≠ j.toNat := by omega
  simp [slotAt, hj, List.getElem?_set, this]

/-- What a returning run of the loop of `aaDelete` has done: nothing but the cost, with
result `NULL`; or it tombstoned one matching `HASH_USED` slot and returned its value. -/
theorem aaDeleteLoop_ok (aarray : AssociativeArray) (key : AAKeyType) (keylen size : Nat) :
    ∀ (fuel : Nat) (index : Int) (cost v : Nat) (t1 : AssociativeArray),
      aaDeleteLoop aarray key keylen size fuel index cost = Outcome.ok (v, t1) →
      (∃ c : Nat, v = 0 ∧ t1 = { aarray with deleteCost := intAdd aarray.deleteCost (c : Int) }) ∨
      (∃ (p : Int) (slot : KeyDataPair) (c : Nat), slotAt aarray.table p = some slot ∧ slot.validity = Validity.HASH_USED ∧
        doKeysMatch key keylen slot.key slot.keylen = true ∧ v = slot.value ∧
        t1 = { aarray with
               table := aarray.table.set p.toNat { slot with validity := Validity.HASH_DELETED }
               deleteCost := intAdd aarray.deleteCost (c : Int) }) := by
  intro fuel
  induction fuel with
  | zero => intro index cost v t1 h; simp [aaDeleteLoop] at h
  | succ fuel ih =>
    intro index cost v t1 h
    simp only [aaDeleteLoop] at h
    split at h
    · exact Outcome.noConfusion h
    · rename_i slot hslot
      split at h
      · rename_i hused
        split at h
        · rename_i hmatch
          right
          injection h with h
          injection h with hv ht
          exact ⟨index, slot, cost + 1, hslot, hused, hmatch, hv.symm, ht.symm⟩
        · exact ih _ _ _ _ h
      · left
        injection h with h
        injection h with hv ht
        exact ⟨cost, hv.symm, ht.symm⟩

/-- Running the loop of `aaDelete` again on the table a first run left behind, from the
same start: the second run returns `NULL` and only adds to `deleteCost`. -/
theorem aaDeleteLoop_again (aarray : AssociativeArray) (key : AAKeyType) (keylen size : Nat) :
    ∀ (fuel : Nat) (index : Int) (cost cost2 v : Nat) (t1 : AssociativeArray),
      aaDeleteLoop aarray key keylen size fuel index cost = Outcome.ok (v, t1) →
      ∃ c : Nat, aaDeleteLoop t1 key keylen size fuel index cost2 =
        Outcome.ok (0, { t1 with deleteCost := intAdd t1.deleteCost (c : Int) }) := by
  intro fuel
  induction fuel with
  | zero => intro index cost cost2 v t1 h; simp [aaDeleteLoop] at h
  | succ fuel ih =>
    intro index cost cost2 v t1 h
    have hall := h
    simp only [aaDeleteLoop] at h
    split at h
    · exact Outcome.noConfusion h
    · rename_i slot hslot
      obtain ⟨hi0, _, _⟩ := slotAt_eq_some hslot
      split at h
      · rename_i hused
        split at h
        · injection h with h
          injection h with hv ht
          subst ht
          refine ⟨cost2, ?_⟩
          simp only [aaDeleteLoop]
          rw [slotAt_set_self hslot]
          simp
        · rename_i hmatch
          obtain ⟨c, hc⟩ := ih _ _ (cost2 + 1) _ _ h
          refine ⟨c, ?_⟩
          have hsame : slotAt t1.table index = some slot := by
            rcases aaDeleteLoop_ok aarray key keylen size _ _ _ _ _ h with
              ⟨c1, _, ht⟩ | ⟨p, s, c1, hp, _, hm, _, ht⟩
            · rw [ht]; exact hslot
            · rw [ht]
              obtain ⟨hp0, _, _⟩ := slotAt_eq_some hp
              have hne : p ≠ index := by
                intro hpi
                rw [hpi, hslot] at hp
                injection hp with hp
                rw [hp] at hmatch
                exact hmatch hm
              show slotAt (aarray.table.set p.toNat _) index = some slot
              rw [slotAt_set_other hp0 hi0 hne]; exact hslot
          simp only [aaDeleteLoop]
          rw [hsame]
          simp only [hused, if_true, hmatch]
          exact hc
      · rename_i hused
        injection h with h
        injection h with hv ht
        subst ht
        refine ⟨cost2, ?_⟩
        simp only [aaDeleteLoop]
        show (match slotAt aarray.table index with
          | none => _
          | some slot => _) = _
        rw [hslot]
        simp [hused]

theorem slotAt_in_range {table : List KeyDataPair} {index : Int} (h0 : 0 ≤ index)
    (h1 : index < table.length) : ∃ slot, slotAt table index = some slot := by
  have hlt : index.toNat < table.length := by omega
  exact ⟨table[index.toNat], by simp [slotAt, h0, List.getElem?_eq_getElem hlt]⟩

theorem tmod_in_range {a : Int} {n : Nat} (ha : 0 ≤ a) (hn : 1 ≤ n) :
    0 ≤ Int.tmod a n ∧ Int.tmod a n < n := by
  have hn0 : (0 : Int) < n := by omega
  rw [Int.tmod_eq_emod ha (le_of_lt hn0)]
  exact ⟨Int.emod_nonneg _ (ne_of_gt hn0), Int.emod_lt_of_pos _ hn0⟩

theorem linearProbeLoop_bounded (hashTable : AssociativeArray) (flag : Bool) (init : Int)
    (hwf : WellFormed hashTable) (hi0 : 0 ≤ init) (hi1 : init < hashTable.size) :
    ∀ (fuel k : Nat) (index : Int) (cost : Nat) (visited : List Int),
      k < hashTable.size → index = (init + k) % hashTable.size → hashTable.size ≤ fuel + k →
      visited.length = k → (∀ i ∈ visited, 0 ≤ i ∧ i < (hashTable.size : Int)) →
      ∃ r, linearProbeLoop hashTable flag init fuel index cost visited = Outcome.ok r ∧
        ProbeBounded hashTable.size r := by
  obtain ⟨hsz, hlen⟩ := hwf
  have hn0 : (0 : Int) < hashTable.size := by omega
  intro fuel
  induction fuel with
  | zero => intro k index cost visited hk _ hf; omega
  | succ fuel ih =>
    intro k index cost visited hk hidx hf hvl hvis
    have hr0 : 0 ≤ index := by rw [hidx]; exact Int.emod_nonneg _ (ne_of_gt hn0)
    have hr1 : index < hashTable.size := by rw [hidx]; exact Int.emod_lt_of_pos _ hn0
    obtain ⟨slot, hslot⟩ := slotAt_in_range hr0 (by rw [hlen]; exact hr1)
    have hvis1 : ∀ i ∈ visited ++ [index], 0 ≤ i ∧ i < (hashTable.size : Int) := by
      intro i hi
      rcases List.mem_append.1 hi with h | h
      · exact hvis i h
      · rw [List.mem_singleton.1 h]; exact ⟨hr0, hr1⟩
    have hvl1 : (visited ++ [index]).length = k + 1 := by simp [hvl]
    simp only [linearProbeLoop, hslot]
    split
    · exact ⟨_, rfl, by rw [hvl1]; omega, hvis1, Or.inr ⟨hr0, hr1⟩⟩
    · split
      · exact ⟨_, rfl, by rw [hvl1]; omega, hvis1, Or.inl rfl⟩
      · have hstep : Int.tmod (index + 1) hashTable.size = (init + (k + 1 : Nat)) % hashTable.size := by
          rw [Int.tmod_eq_emod (by omega) (le_of_lt hn0), hidx, Int.emod_add_emod]
          push_cast
          rw [Int.add_assoc]
        split
        · exact ⟨_, rfl, by rw [hvl1]; omega, hvis1, Or.inl rfl⟩
        · rename_i hne
          have hk1 : k + 1 < hashTable.size := by
            by_contra hge
            have hkn : k + 1 = hashTable.size := by omega
            apply hne
            rw [hstep, hkn, Int.add_emod_self]
            exact Int.emod_eq_of_lt hi0 hi1
          exact ih (k + 1) _ _ _ hk1 hstep (by omega) hvl1 hvis1

theorem quadraticProbeLoop_bounded (hashTable : AssociativeArray) (startIndex : Int)
    (hwf : WellFormed hashTable) (hs0 : 0 ≤ startIndex) :
    ∀ (rounds : Nat) (probingIndex : Int) (cost : Nat) (visited : List Int),
      visited.length + rounds ≤ hashTable.size →
      (∀ i ∈ visited, 0 ≤ i ∧ i < (hashTable.size : Int)) →
      ∃ r, quadraticProbeLoop hashTable startIndex hashTable.size rounds probingIndex cost visited
          = Outcome.ok r ∧ ProbeBounded hashTable.size r := by
  obtain ⟨hsz, hlen⟩ := hwf
  intro rounds
  induction rounds with
  | zero =>
    intro probingIndex cost visited hvl hvis
    exact ⟨_, rfl, by simpa using hvl, hvis, Or.inl rfl⟩
  | succ rounds ih =>
    intro probingIndex cost visited hvl hvis
    have hsq : 0 ≤ startIndex + (probingIndex + 1) * (probingIndex + 1) :=
      add_nonneg hs0 (mul_self_nonneg _)
    obtain ⟨hr0, hr1⟩ := tmod_in_range hsq hsz
    obtain ⟨slot, hslot⟩ := slotAt_in_range hr0 (by rw [hlen]; exact hr1)
    have hvis1 : ∀ i ∈ visited ++
        [Int.tmod (startIndex + (probingIndex + 1) * (probingIndex + 1)) hashTable.size],
        0 ≤ i ∧ i < (hashTable.size : Int) := by
      intro i hi
      rcases List.mem_append.1 hi with h | h
      · exact hvis i h
      · rw [List.mem_singleton.1 h]; exact ⟨hr0, hr1⟩
    simp only [quadraticProbeLoop, hslot]
    split
    · refine ⟨_, rfl, ?_, hvis1, Or.inr ⟨hr0, hr1⟩⟩
      simp only [List.length_append, List.length_singleton]; omega
    · refine ih _ _ _ ?_ hvis1
      simp only [List.length_append, List.length_singleton]; omega

theorem doubleHashProbeLoop_bounded (hashTable : AssociativeArray) (flag : Bool) (stepSize : Nat)
    (hwf : WellFormed hashTable) :
    ∀ (rounds : Nat) (index : Int) (cost : Nat) (visited : List Int),
      0 ≤ index → index < hashTable.size →
      visited.length + rounds ≤ hashTable.size →
      (∀ i ∈ visited, 0 ≤ i ∧ i < (hashTable.size : Int)) →
      ∃ r, doubleHashProbeLoop hashTable flag stepSize rounds index cost visited
          = Outcome.ok r ∧ ProbeBounded hashTable.size r := by
  obtain ⟨hsz, hlen⟩ := hwf
  intro rounds
  induction rounds with
  | zero =>
    intro index cost visited _ _ hvl hvis
    exact ⟨_, rfl, by simpa using hvl, hvis, Or.inl rfl⟩
  | succ rounds ih =>
    intro index cost visited hr0 hr1 hvl hvis
    obtain ⟨slot, hslot⟩ := slotAt_in_range hr0 (by rw [hlen]; exact hr1)
    have hvis1 : ∀ i ∈ visited ++ [index], 0 ≤ i ∧ i < (hashTable.size : Int) := by
      intro i hi
      rcases List.mem_append.1 hi with h | h
      · exact hvis i h
      · rw [List.mem_singleton.1 h]; exact ⟨hr0, hr1⟩
    have hvl1 : (visited ++ [index]).length + rounds ≤ hashTable.size := by
      simp only [List.length_append, List.length_singleton]; omega
    simp only [doubleHashProbeLoop, hslot]
    split
    · exact ⟨_, rfl, Nat.le_trans (Nat.le_add_right _ _) hvl1, hvis1, Or.inr ⟨hr0, hr1⟩⟩
    · split
      · exact ⟨_, rfl, Nat.le_trans (Nat.le_add_right _ _) hvl1, hvis1, Or.inl rfl⟩
      · have hsum : 0 ≤ index + (stepSize : Int) := by omega
        obtain ⟨hn0, hn1⟩ := tmod_in_range hsum hsz
        exact ih _ _ _ hn0 hn1 hvl1 hvis1

theorem usedInvocations_cons (slot : KeyDataPair) (rest : List KeyDataPair) :
    usedInvocations (slot :: rest) =
      if slot.validity = Validity.HASH_USED then invocationOf slot :: usedInvocations rest
      else usedInvocations rest := by
  unfold usedInvocations
  by_cases h : slot.validity = Validity.HASH_USED <;> simp [List.filter_cons, h]

theorem slotAt_natCast (table : List KeyDataPair) (i : Nat) (h : i < table.length) :
    slotAt table (i : Int) = some table[i] := by
  simp [slotAt, List.getElem?_eq_getElem h]

theorem aaIterateActionLoop_eq {σ : Type} (aarray : AssociativeArray)
    (userfunction : AAKeyType → Nat → Nat → σ → Int × σ) :
    ∀ (rounds i : Nat) (userdata : σ) (calls : List Invocation),
      i + rounds = aarray.table.length →
      aaIterateActionLoop aarray userfunction rounds (i : Int) userdata calls =
        Outcome.ok
          ((callUntilNegative userfunction (usedInvocations (aarray.table.drop i)) userdata).1,
           (callUntilNegative userfunction (usedInvocations (aarray.table.drop i)) userdata).2.1,
           calls ++
           (callUntilNegative userfunction (usedInvocations (aarray.table.drop i)) userdata).2.2) := by
  intro rounds
  induction rounds with
  | zero =>
    intro i userdata calls hi
    have : aarray.table.drop i = [] := List.drop_eq_nil_of_le (by omega)
    simp [aaIterateActionLoop, this, usedInvocations, callUntilNegative]
  | succ rounds ih =>
    intro i userdata calls hi
    have hlt : i < aarray.table.length := by omega
    have hnext : ((i : Int) + 1) = ((i + 1 : Nat) : Int) := by push_cast; rfl
    simp only [aaIterateActionLoop, slotAt_natCast _ _ hlt]
    rw [List.drop_eq_getElem_cons hlt, usedInvocations_cons, hnext]
    by_cases hused : aarray.table[i].validity = Validity.HASH_USED
    · simp only [hused, if_true]
      by_cases hneg :
          (userfunction aarray.table[i].key aarray.table[i].keylen aarray.table[i].value
            userdata).1 < 0
      · simp [callUntilNegative, invocationOf, hneg]
      · rw [if_neg hneg, ih (i + 1) _ _ (by omega)]
        simp [callUntilNegative, invocationOf, hneg]
    · simp only [hused, if_false]
      exact ih (i + 1) _ _ (by omega)

theorem callUntilNegative_prefix {σ : Type} (userfunction : AAKeyType → Nat → Nat → σ → Int × σ) :
    ∀ (l : List Invocation) (userdata : σ),
      (callUntilNegative userfunction l userdata).2.2 <+: l ∧
      ((callUntilNegative userfunction l userdata).1 = 1 ∨
        (callUntilNegative userfunction l userdata).1 = -1) ∧
      ((callUntilNegative userfunction l userdata).1 = 1 →
        (callUntilNegative userfunction l userdata).2.2 = l) := by
  intro l
  induction l with
  | nil => intro userdata; simp [callUntilNegative]
  | cons c rest ih =>
    intro userdata
    by_cases hneg : (userfunction c.key c.keylen c.datavalue userdata).1 < 0
    · have hval : callUntilNegative userfunction (c :: rest) userdata =
          (-1, (userfunction c.key c.keylen c.datavalue userdata).2, [c]) := by
        simp [callUntilNegative, hneg]
      rw [hval]
      have hne : ¬ ((-1 : Int) = 1) := by decide
      exact ⟨⟨rest, rfl⟩, Or.inr rfl, fun h => absurd h hne⟩
    · have hval : callUntilNegative userfunction (c :: rest) userdata =
          ((callUntilNegative userfunction rest
              (userfunction c.key c.keylen c.datavalue userdata).2).1,
           (callUntilNegative userfunction rest
              (userfunction c.key c.keylen c.datavalue userdata).2).2.1,
           c :: (callUntilNegative userfunction rest
              (userfunction c.key c.keylen c.datavalue userdata).2).2.2) := by
        simp [callUntilNegative, hneg]
      rw [hval]
      obtain ⟨h1, h2, h3⟩ := ih (userfunction c.key c.keylen c.datavalue userdata).2
      exact ⟨(List.prefix_cons_inj c).2 h1, h2, fun h => by rw [h3 h]⟩


theorem getD_eq_of_take_eq (key key2 : AAKeyType) (n i : Nat)
    (h : key2.take n = key.take n) (hi : i < n) : key2.getD i 0 = key.getD i 0 := by
  have h1 : (key2.take n)[i]? = (key.take n)[i]? := by rw [h]
  simp only [List.getElem?_take, hi, if_true] at h1
  simp [List.getD_eq_getElem?_getD, h1]

theorem fullTable_deleteLoop_outOfFuel :
    ∀ (fuel : Nat) (index : Int) (cost : Nat), index = 0 ∨ index = 1 →
      aaDeleteLoop fullTable keyC 1 2 fuel index cost = Outcome.outOfFuel := by
  intro fuel
  induction fuel with
  | zero => intro index cost _; rfl
  | succ fuel ih =>
    intro index cost hindex
    rcases hindex with h | h
    · subst h
      have hstep : aaDeleteLoop fullTable keyC 1 2 (fuel + 1) 0 cost =
          aaDeleteLoop fullTable keyC 1 2 fuel 1 (cost + 1) := rfl
      rw [hstep]; exact ih 1 _ (Or.inr rfl)
    · subst h
      have hstep : aaDeleteLoop fullTable keyC 1 2 (fuel + 1) 1 cost =
          aaDeleteLoop fullTable keyC 1 2 fuel 0 (cost + 1) := rfl
      rw [hstep]; exact ih 0 _ (Or.inl rfl)

/-- What a returning run of the loop of `aaInsert` has done: it found the slot at `index`
in use with a matching key and replaced the value; or it found it not in use and stored
the key there, adding to `insertCost` and `nEntries`. -/
theorem aaInsertLoop_ok (aarray : AssociativeArray) (key : AAKeyType) (keylen value : Nat)
    (index : Int) :
    ∀ (fuel cost : Nat) (i : Int) (t1 : AssociativeArray),
      aaInsertLoop aarray key keylen value index fuel cost = Outcome.ok (i, t1) →
      i = index ∧ ∃ slot, slotAt aarray.table index = some slot ∧
        ((slot.validity = Validity.HASH_USED ∧
            doKeysMatch key keylen slot.key slot.keylen = true ∧
            t1 = { aarray with
                   table := aarray.table.set index.toNat { slot with value := value } }) ∨
         (slot.validity ≠ Validity.HASH_USED ∧ ∃ c : Nat,
            t1 = { aarray with
                   table := aarray.table.set index.toNat
                     { key := key.take keylen, keylen := keylen, value := value,
                       validity := Validity.HASH_USED }
                   insertCost := intAdd aarray.insertCost (c : Int)
                   nEntries := aarray.nEntries + 1 })) := by
  intro fuel
  induction fuel with
  | zero => intro cost i t1 h; simp [aaInsertLoop] at h
  | succ fuel ih =>
    intro cost i t1 h
    simp only [aaInsertLoop] at h
    split at h
    · exact Outcome.noConfusion h
    · rename_i slot hslot
      split at h
      · rename_i hused
        split at h
        · rename_i hmatch
          injection h with h
          injection h with hi ht
          exact ⟨hi.symm, slot, hslot, Or.inl ⟨hused, hmatch, ht.symm⟩⟩
        · exact ih _ _ _ h
      · rename_i hused
        injection h with h
        injection h with hi ht
        exact ⟨hi.symm, slot, hslot, Or.inr ⟨hused, cost, ht.symm⟩⟩

/-- The loop of `aaLookup` on a home slot whose key does not match. -/
theorem aaLookupLoop_miss (aarray : AssociativeArray) (key : AAKeyType) (keylen : Nat)
    (initIndex : Int) (slot : KeyDataPair) (hslot : slotAt aarray.table initIndex = some slot)
    (hmiss : doKeysMatch key keylen slot.key slot.keylen = false) :
    ∀ (rounds cost : Nat),
      aaLookupLoop aarray key keylen initIndex rounds cost =
        Outcome.ok (0,
          { aarray with searchCost := intAdd aarray.searchCost ((cost + rounds : Nat) : Int) }) := by
  intro rounds
  induction rounds with
  | zero => intro cost; rfl
  | succ rounds ih =>
    intro cost
    simp only [aaLookupLoop, hslot, hmiss]
    rw [ih (cost + 1)]
    have : cost + 1 + rounds = cost + (rounds + 1) := by omega
    simp [this]

/-- The loop of `aaLookup` on a home slot whose key matches. -/
theorem aaLookupLoop_hit (aarray : AssociativeArray) (key : AAKeyType) (keylen : Nat)
    (initIndex : Int) (slot : KeyDataPair) (hslot : slotAt aarray.table initIndex = some slot)
    (hhit : doKeysMatch key keylen slot.key slot.keylen = true) (rounds cost : Nat)
    (hrounds : 0 < rounds) :
    aaLookupLoop aarray key keylen initIndex rounds cost =
      Outcome.ok (slot.value,
        { aarray with searchCost := intAdd aarray.searchCost ((cost + 1 : Nat) : Int) }) := by
  cases rounds with
  | zero => omega
  | succ rounds => simp [aaLookupLoop, hslot, hhit]

/-- A returning `aaLookup` changes nothing but `searchCost`, to which it adds its steps. -/
theorem aaLookupLoop_ok (aarray : AssociativeArray) (key : AAKeyType) (keylen : Nat)
    (initIndex : Int) :
    ∀ (rounds cost v : Nat) (t1 : AssociativeArray),
      aaLookupLoop aarray key keylen initIndex rounds cost = Outcome.ok (v, t1) →
      ∃ c : Nat, t1 = { aarray with searchCost := intAdd aarray.searchCost (c : Int) } := by
  intro rounds
  induction rounds with
  | zero =>
    intro cost v t1 h
    simp only [aaLookupLoop] at h
    injection h with h
    injection h with _ ht
    exact ⟨cost, ht.symm⟩
  | succ rounds ih =>
    intro cost v t1 h
    simp only [aaLookupLoop] at h
    split at h
    · exact Outcome.noConfusion h
    · split at h
      · injection h with h
        injection h with _ ht
        exact ⟨cost + 1, ht.symm⟩
      · exact ih _ _ _ h

theorem applyHash_lt (w : Nat) (h : HashAlgorithm) (key : AAKeyType) (keyLength size : Nat)
    (hsize : 0 < size) : applyHash w h key keyLength size < size := by
  cases h <;> exact Nat.mod_lt _ hsize

/-- The result of `aaLookup` in terms of the home slot alone. -/
theorem aaLookup_of_slot (w : Nat) (aarray : AssociativeArray) (key : AAKeyType) (keylen : Nat)
    (slot : KeyDataPair) (hsz : 1 ≤ aarray.size)
    (hslot : slotAt aarray.table
      (applyHash w aarray.hashAlgorithmPrimary key keylen aarray.size) = some slot) :
    aaLookup w aarray key keylen =
      Outcome.ok
        (if doKeysMatch key keylen slot.key slot.keylen
         then (slot.value, { aarray with searchCost := intAdd aarray.searchCost 1 })
         else (0, { aarray with searchCost := intAdd aarray.searchCost (aarray.size : Int) })) := by
  unfold aaLookup
  by_cases hm : doKeysMatch key keylen slot.key slot.keylen = true
  · rw [aaLookupLoop_hit aarray key keylen _ slot hslot hm _ _ (by omega)]
    simp [hm]
  · have hm2 : doKeysMatch key keylen slot.key slot.keylen = false := by simpa using hm
    rw [aaLookupLoop_miss aarray key keylen _ slot hslot hm2]
    simp [hm2]

/-! ## Lemmas on the probe sequences -/

theorem tmod_natCast_add (a b n : Nat) :
    Int.tmod ((a : Int) + (b : Int)) (n : Int) = (((a + b) % n : Nat) : Int) := by
  rw [Int.ofNat_tmod]; push_cast; rfl

theorem tmod_natCast_succ (a n : Nat) :
    Int.tmod ((a : Int) + 1) (n : Int) = (((a + 1) % n : Nat) : Int) := by
  rw [Int.ofNat_tmod]; push_cast; rfl

theorem add_mod_ne_start {s j n : Nat} (hs : s < n) (hj0 : 0 < j) (hjn : j < n) :
    (s + j) % n ≠ s := by
  by_cases h : s + j < n
  · rw [Nat.mod_eq_of_lt h]; omega
  · rw [Nat.mod_eq_sub_mod (by omega), Nat.mod_eq_of_lt (by omega)]; omega

theorem add_mod_self_start {s n : Nat} (hs : s < n) : (s + n) % n = s := by
  rw [Nat.add_mod_right, Nat.mod_eq_of_lt hs]

theorem exists_offset {s i n : Nat} (hs : s < n) (hi : i < n) :
    ∃ j, j < n ∧ (s + j) % n = i := by
  refine ⟨(i + n - s) % n, Nat.mod_lt _ (by omega), ?_⟩
  rw [Nat.add_mod_mod]
  have : s + (i + n - s) = i + n := by omega
  rw [this, Nat.add_mod_right, Nat.mod_eq_of_lt hi]

theorem map_range_succ (f : Nat → Int) (k len : Nat) :
    (List.range' k (len + 1)).map f = f k :: (List.range' (k + 1) len).map f := by
  simp [List.range'_succ]

theorem isUsed_eq_true {table : List KeyDataPair} {i : Nat} (h : isUsed table i = true) :
    ∃ slot, slotAt table (i : Int) = some slot ∧ slot.validity = Validity.HASH_USED := by
  unfold isUsed at h
  split at h
  · rename_i slot hslot
    exact ⟨slot, hslot, by simpa using h⟩
  · exact absurd h (by decide)

theorem isUsed_eq_false {table : List KeyDataPair} {i : Nat} (hi : i < table.length)
    (h : isUsed table i = false) :
    ∃ slot, slotAt table (i : Int) = some slot ∧ slot.validity ≠ Validity.HASH_USED := by
  unfold isUsed at h
  rw [slotAt_natCast table i hi] at h
  exact ⟨table[i], slotAt_natCast table i hi, by simpa using h⟩

/-- One round of `linearProbe` on a slot that is not in use. -/
theorem linearProbeLoop_free (hashTable : AssociativeArray) (flag : Bool) (init : Int)
    (fuel i cost : Nat) (visited : List Int) (hi : i < hashTable.table.length)
    (hfree : isUsed hashTable.table i = false) :
    linearProbeLoop hashTable flag init (fuel + 1) (i : Int) cost visited =
      Outcome.ok { index := (i : Int), cost := cost, visited := visited ++ [(i : Int)] } := by
  obtain ⟨slot, hslot, hv⟩ := isUsed_eq_false hi hfree
  simp only [linearProbeLoop, hslot]
  simp [hv]

/-- One round of `linearProbe` on a slot that is in use. -/
theorem linearProbeLoop_used (hashTable : AssociativeArray) (flag : Bool) (s : Nat)
    (fuel i cost : Nat) (visited : List Int) (hused : isUsed hashTable.table i = true) :
    linearProbeLoop hashTable flag (s : Int) (fuel + 1) (i : Int) cost visited =
      if (i + 1) % hashTable.size = s then
        Outcome.ok { index := -1, cost := cost + 1, visited := visited ++ [(i : Int)] }
      else
        linearProbeLoop hashTable flag (s : Int) fuel (((i + 1) % hashTable.size : Nat) : Int)
          (cost + 1) (visited ++ [(i : Int)]) := by
  obtain ⟨slot, hslot, hv⟩ := isUsed_eq_true hused
  have hdel : (Validity.HASH_USED == Validity.HASH_DELETED) = false := by decide
  simp only [linearProbeLoop, hslot, hv, hdel, ne_eq, not_true_eq_false, if_false,
    Bool.and_false, Bool.false_eq_true, tmod_natCast_succ, Nat.cast_inj]

/-- `linearProbe` from offset `k` when the first slot not in use is at offset `d`. -/
theorem linearProbeLoop_find (hashTable : AssociativeArray) (flag : Bool) (s d : Nat)
    (hwf : WellFormed hashTable) (hs : s < hashTable.size) (hd : d < hashTable.size)
    (hfree : isUsed hashTable.table ((s + d) % hashTable.size) = false) :
    ∀ (fuel k cost : Nat) (visited : List Int), k ≤ d → d - k < fuel →
      (∀ j, k ≤ j → j < d → isUsed hashTable.table ((s + j) % hashTable.size) = true) →
      linearProbeLoop hashTable flag (s : Int) fuel (((s + k) % hashTable.size : Nat) : Int)
          cost visited =
        Outcome.ok
          { index := (((s + d) % hashTable.size : Nat) : Int)
            cost := cost + (d - k)
            visited := visited ++
              (List.range' k (d + 1 - k)).map
                (fun j => (((s + j) % hashTable.size : Nat) : Int)) } := by
  obtain ⟨hsz, hlen⟩ := hwf
  intro fuel
  induction fuel with
  | zero => intro k cost visited _ hf; omega
  | succ fuel ih =>
    intro k cost visited hkd hf hused
    by_cases hk : k = d
    · subst hk
      rw [linearProbeLoop_free _ _ _ _ _ _ _ (by rw [hlen]; exact Nat.mod_lt _ (by omega)) hfree]
      have : k + 1 - k = 1 := by omega
      simp [this]
    · have hlt : k < d := by omega
      rw [linearProbeLoop_used _ _ _ _ _ _ _ (hused k (le_refl _) hlt), Nat.mod_add_mod]
      have hne : (s + (k + 1)) % hashTable.size ≠ s := add_mod_ne_start hs (by omega) (by omega)
      rw [Nat.add_assoc, if_neg hne]
      rw [ih (k + 1) (cost + 1) _ (by omega) (by omega)
        (fun j hj1 hj2 => hused j (by omega) hj2)]
      obtain ⟨m, hm⟩ : ∃ m, d - k = m + 1 := ⟨d - k - 1, by omega⟩
      have h1 : d + 1 - k = m + 1 + 1 := by omega
      have h2 : d + 1 - (k + 1) = m + 1 := by omega
      have h3 : cost + 1 + (d - (k + 1)) = cost + (m + 1) := by omega
      rw [h1, h2, h3, hm, map_range_succ _ k]
      simp

/-- `linearProbe` from offset `k` when every slot from there on is in use. -/
theorem linearProbeLoop_none (hashTable : AssociativeArray) (flag : Bool) (s : Nat)
    (hs : s < hashTable.size) :
    ∀ (fuel k cost : Nat) (visited : List Int), k < hashTable.size →
      hashTable.size - k ≤ fuel →
      (∀ j, k ≤ j → j < hashTable.size →
        isUsed hashTable.table ((s + j) % hashTable.size) = true) →
      linearProbeLoop hashTable flag (s : Int) fuel (((s + k) % hashTable.size : Nat) : Int)
          cost visited =
        Outcome.ok
          { index := -1
            cost := cost + (hashTable.size - k)
            visited := visited ++
              (List.range' k (hashTable.size - k)).map
                (fun j => (((s + j) % hashTable.size : Nat) : Int)) } := by
  intro fuel
  induction fuel with
  | zero => intro k cost visited hk hf; omega
  | succ fuel ih =>
    intro k cost visited hk hf hused
    rw [linearProbeLoop_used _ _ _ _ _ _ _ (hused k (le_refl _) hk), Nat.mod_add_mod,
      Nat.add_assoc]
    by_cases hlast : k + 1 = hashTable.size
    · rw [hlast, if_pos (add_mod_self_start hs)]
      have h1 : hashTable.size - k = 1 := by omega
      simp [h1]
    · have hne : (s + (k + 1)) % hashTable.size ≠ s := add_mod_ne_start hs (by omega) (by omega)
      rw [if_neg hne, ih (k + 1) (cost + 1) _ (by omega) (by omega)
        (fun j hj1 hj2 => hused j (by omega) hj2)]
      obtain ⟨m, hm⟩ : ∃ m, hashTable.size - k = m + 1 := ⟨hashTable.size - k - 1, by omega⟩
      have h2 : hashTable.size - (k + 1) = m := by omega
      have h3 : cost + 1 + m = cost + (m + 1) := by omega
      rw [h2, hm, h3, map_range_succ _ k]
      simp

/-- If `linearProbe` from offset `k` returns `-1`, every slot from there on is in use. -/
theorem linearProbeLoop_full (hashTable : AssociativeArray) (flag : Bool) (s : Nat)
    (hwf : WellFormed hashTable) (hs : s < hashTable.size) :
    ∀ (fuel k cost : Nat) (visited : List Int) (r : ProbeResult), k < hashTable.size →
      linearProbeLoop hashTable flag (s : Int) fuel (((s + k) % hashTable.size : Nat) : Int)
          cost visited = Outcome.ok r →
      r.index = -1 →
      ∀ j, k ≤ j → j < hashTable.size →
        isUsed hashTable.table ((s + j) % hashTable.size) = true := by
  obtain ⟨hsz, hlen⟩ := hwf
  intro fuel
  induction fuel with
  | zero => intro k cost visited r _ h; simp [linearProbeLoop] at h
  | succ fuel ih =>
    intro k cost visited r hk h hr j hkj hjn
    by_cases hused : isUsed hashTable.table ((s + k) % hashTable.size) = true
    · rw [linearProbeLoop_used _ _ _ _ _ _ _ hused, Nat.mod_add_mod, Nat.add_assoc] at h
      by_cases hlast : k + 1 = hashTable.size
      · have : j = k := by omega
        rw [this]; exact hused
      · have hne : (s + (k + 1)) % hashTable.size ≠ s :=
          add_mod_ne_start hs (by omega) (by omega)
        rw [if_neg hne] at h
        by_cases hjk : j = k
        · rw [hjk]; exact hused
        · exact ih (k + 1) _ _ r (by omega) h hr j (by omega) hjn
    · have hfree : isUsed hashTable.table ((s + k) % hashTable.size) = false := by
        simpa using hused
      rw [linearProbeLoop_free _ _ _ _ _ _ _ (by rw [hlen]; exact Nat.mod_lt _ (by omega)) hfree]
        at h
      injection h with h
      rw [← h] at hr
      simp only at hr
      omega

theorem isFree_eq_true {table : List KeyDataPair} {i : Nat} (h : isFree table i = true) :
    ∃ slot, slotAt table (i : Int) = some slot ∧
      (slot.validity = Validity.HASH_EMPTY ∨ slot.validity = Validity.HASH_DELETED) := by
  unfold isFree at h
  split at h
  · rename_i slot hslot
    exact ⟨slot, hslot, by simpa using h⟩
  · exact absurd h (by decide)

theorem isFree_eq_false {table : List KeyDataPair} {i : Nat} (hi : i < table.length)
    (h : isFree table i = false) :
    ∃ slot, slotAt table (i : Int) = some slot ∧
      ¬ (slot.validity = Validity.HASH_EMPTY ∨ slot.validity = Validity.HASH_DELETED) := by
  unfold isFree at h
  rw [slotAt_natCast table i hi] at h
  exact ⟨table[i], slotAt_natCast table i hi, by simpa using h⟩

theorem step_position (s k stepSize n : Nat) :
    ((s + k * stepSize) % n + stepSize) % n = (s + (k + 1) * stepSize) % n := by
  rw [Nat.mod_add_mod, Nat.add_assoc, ← Nat.succ_mul]

/-- One round of `doubleHashProbe` on a slot that is not in use. -/
theorem doubleHashProbeLoop_free (hashTable : AssociativeArray) (flag : Bool) (stepSize : Nat)
    (rounds i cost : Nat) (visited : List Int) (hi : i < hashTable.table.length)
    (hfree : isUsed hashTable.table i = false) :
    doubleHashProbeLoop hashTable flag stepSize (rounds + 1) (i : Int) cost visited =
      Outcome.ok { index := (i : Int), cost := cost, visited := visited ++ [(i : Int)] } := by
  obtain ⟨slot, hslot, hv⟩ := isUsed_eq_false hi hfree
  simp only [doubleHashProbeLoop, hslot]
  simp [hv]

/-- One round of `doubleHashProbe` on a slot that is in use. -/
theorem doubleHashProbeLoop_used (hashTable : AssociativeArray) (flag : Bool) (stepSize : Nat)
    (rounds i cost : Nat) (visited : List Int) (hused : isUsed hashTable.table i = true) :
    doubleHashProbeLoop hashTable flag stepSize (rounds + 1) (i : Int) cost visited =
      doubleHashProbeLoop hashTable flag stepSize rounds
        (((i + stepSize) % hashTable.size : Nat) : Int) (cost + 1) (visited ++ [(i : Int)]) := by
  obtain ⟨slot, hslot, hv⟩ := isUsed_eq_true hused
  have hdel : (Validity.HASH_USED == Validity.HASH_DELETED) = false := by decide
  simp only [doubleHashProbeLoop, hslot, hv, hdel, ne_eq, not_true_eq_false, if_false,
    Bool.and_false, Bool.false_eq_true, tmod_natCast_add]

/-- `doubleHashProbe` from position `k` of the sequence when the first slot not in use is
at position `d`. -/
theorem doubleHashProbeLoop_find (hashTable : AssociativeArray) (flag : Bool)
    (s stepSize d : Nat) (hwf : WellFormed hashTable)
    (hfree : isUsed hashTable.table ((s + d * stepSize) % hashTable.size) = false) :
    ∀ (rounds k cost : Nat) (visited : List Int), k ≤ d → d - k < rounds →
      (∀ j, k ≤ j → j < d →
        isUsed hashTable.table ((s + j * stepSize) % hashTable.size) = true) →
      doubleHashProbeLoop hashTable flag stepSize rounds
          (((s + k * stepSize) % hashTable.size : Nat) : Int) cost visited =
        Outcome.ok
          { index := (((s + d * stepSize) % hashTable.size : Nat) : Int)
            cost := cost + (d - k)
            visited := visited ++
              (List.range' k (d + 1 - k)).map
                (fun j => (((s + j * stepSize) % hashTable.size : Nat) : Int)) } := by
  obtain ⟨hsz, hlen⟩ := hwf
  intro rounds
  induction rounds with
  | zero => intro k cost visited _ hf; omega
  | succ rounds ih =>
    intro k cost visited hkd hf hused
    by_cases hk : k = d
    · subst hk
      rw [doubleHashProbeLoop_free _ _ _ _ _ _ _
        (by rw [hlen]; exact Nat.mod_lt _ (by omega)) hfree]
      have : k + 1 - k = 1 := by omega
      simp [this]
    · have hlt : k < d := by omega
      rw [doubleHashProbeLoop_used _ _ _ _ _ _ _ (hused k (le_refl _) hlt), step_position]
      rw [ih (k + 1) (cost + 1) _ (by omega) (by omega)
        (fun j hj1 hj2 => hused j (by omega) hj2)]
      obtain ⟨m, hm⟩ : ∃ m, d - k = m + 1 := ⟨d - k - 1, by omega⟩
      have h1 : d + 1 - k = m + 1 + 1 := by omega
      have h2 : d + 1 - (k + 1) = m + 1 := by omega
      have h3 : cost + 1 + (d - (k + 1)) = cost + (m + 1) := by omega
      rw [h1, h2, h3, hm, map_range_succ _ k]
      simp

/-- `doubleHashProbe` when all the positions left in the sequence are in use. -/
theorem doubleHashProbeLoop_none (hashTable : AssociativeArray) (flag : Bool)
    (s stepSize : Nat) :
    ∀ (rounds k cost : Nat) (visited : List Int),
      (∀ j, k ≤ j → j < k + rounds →
        isUsed hashTable.table ((s + j * stepSize) % hashTable.size) = true) →
      doubleHashProbeLoop hashTable flag stepSize rounds
          (((s + k * stepSize) % hashTable.size : Nat) : Int) cost visited =
        Outcome.ok
          { index := -1
            cost := cost + rounds
            visited := visited ++
              (List.range' k rounds).map
                (fun j => (((s + j * stepSize) % hashTable.size : Nat) : Int)) } := by
  intro rounds
  induction rounds with
  | zero => intro k cost visited _; simp [doubleHashProbeLoop]
  | succ rounds ih =>
    intro k cost visited hused
    rw [doubleHashProbeLoop_used _ _ _ _ _ _ _ (hused k (le_refl _) (by omega)), step_position]
    rw [ih (k + 1) (cost + 1) _ (fun j hj1 hj2 => hused j (by omega) (by omega))]
    have h3 : cost + 1 + rounds = cost + (rounds + 1) := by omega
    rw [h3, map_range_succ _ k]
    simp

theorem quadratic_cast (s p n : Nat) :
    Int.tmod ((s : Int) + ((p : Int) + 1) * ((p : Int) + 1)) (n : Int) =
      (((s + (p + 1) * (p + 1)) % n : Nat) : Int) := by
  rw [Int.ofNat_tmod]; push_cast; rfl

/-- One round of `quadraticProbe` that lands on an empty or deleted slot. -/
theorem quadraticProbeLoop_free (hashTable : AssociativeArray) (s n : Nat)
    (rounds p cost : Nat) (visited : List Int)
    (hfree : isFree hashTable.table ((s + (p + 1) * (p + 1)) % n) = true) :
    quadraticProbeLoop hashTable (s : Int) (n : Int) (rounds + 1) (p : Int) cost visited =
      Outcome.ok
        { index := (((s + (p + 1) * (p + 1)) % n : Nat) : Int)
          cost := cost
          visited := visited ++ [(((s + (p + 1) * (p + 1)) % n : Nat) : Int)] } := by
  obtain ⟨slot, hslot, hv⟩ := isFree_eq_true hfree
  simp only [quadraticProbeLoop, quadratic_cast, hslot]
  simp [hv]

/-- One round of `quadraticProbe` that lands on a slot in use. -/
theorem quadraticProbeLoop_busy (hashTable : AssociativeArray) (s n : Nat)
    (rounds p cost : Nat) (visited : List Int)
    (hi : (s + (p + 1) * (p + 1)) % n < hashTable.table.length)
    (hbusy : isFree hashTable.table ((s + (p + 1) * (p + 1)) % n) = false) :
    quadraticProbeLoop hashTable (s : Int) (n : Int) (rounds + 1) (p : Int) cost visited =
      quadraticProbeLoop hashTable (s : Int) (n : Int) rounds ((p + 1 : Nat) : Int) (cost + 1)
        (visited ++ [(((s + (p + 1) * (p + 1)) % n : Nat) : Int)]) := by
  obtain ⟨slot, hslot, hv⟩ := isFree_eq_false hi hbusy
  simp only [quadraticProbeLoop, quadratic_cast, hslot]
  simp [hv]

/-- `quadraticProbe` after `p` rounds when the first empty or deleted slot is met in
round `i`. -/
theorem quadraticProbeLoop_find (hashTable : AssociativeArray) (s i : Nat)
    (hwf : WellFormed hashTable)
    (hfree : isFree hashTable.table ((s + i * i) % hashTable.size) = true) :
    ∀ (rounds p cost : Nat) (visited : List Int), p < i → i - p ≤ rounds →
      (∀ j, p < j → j < i → isFree hashTable.table ((s + j * j) % hashTable.size) = false) →
      quadraticProbeLoop hashTable (s : Int) (hashTable.size : Int) rounds (p : Int) cost visited =
        Outcome.ok
          { index := (((s + i * i) % hashTable.size : Nat) : Int)
            cost := cost + (i - p - 1)
            visited := visited ++
              (List.range' (p + 1) (i - p)).map
                (fun j => (((s + j * j) % hashTable.size : Nat) : Int)) } := by
  obtain ⟨hsz, hlen⟩ := hwf
  intro rounds
  induction rounds with
  | zero => intro p cost visited hp hf; omega
  | succ rounds ih =>
    intro p cost visited hp hf hbusy
    by_cases hk : p + 1 = i
    · subst hk
      rw [quadraticProbeLoop_free _ _ _ _ _ _ _ hfree]
      have : p + 1 - p = 1 := by omega
      simp [this]
    · rw [quadraticProbeLoop_busy _ _ _ _ _ _ _
        (by rw [hlen]; exact Nat.mod_lt _ (by omega)) (hbusy (p + 1) (by omega) (by omega))]
      rw [ih (p + 1) (cost + 1) _ (by omega) (by omega)
        (fun j hj1 hj2 => hbusy j (by omega) hj2)]
      obtain ⟨m, hm⟩ : ∃ m, i - p = m + 1 + 1 := ⟨i - p - 2, by omega⟩
      have h2 : i - (p + 1) = m + 1 := by omega
      have h3 : cost + 1 + (m + 1 - 1) = cost + (m + 1 + 1 - 1) := by omega
      rw [h2, hm, h3, map_range_succ _ (p + 1)]
      simp

/-- `quadraticProbe` when none of the rounds left lands on an empty or deleted slot. -/
theorem quadraticProbeLoop_none (hashTable : AssociativeArray) (s : Nat)
    (hwf : WellFormed hashTable) :
    ∀ (rounds p cost : Nat) (visited : List Int),
      (∀ j, p < j → j ≤ p + rounds →
        isFree hashTable.table ((s + j * j) % hashTable.size) = false) →
      quadraticProbeLoop hashTable (s : Int) (hashTable.size : Int) rounds (p : Int) cost visited =
        Outcome.ok
          { index := -1
            cost := cost + rounds
            visited := visited ++
              (List.range' (p + 1) rounds).map
                (fun j => (((s + j * j) % hashTable.size : Nat) : Int)) } := by
  obtain ⟨hsz, hlen⟩ := hwf
  intro rounds
  induction rounds with
  | zero => intro p cost visited _; simp [quadraticProbeLoop]
  | succ rounds ih =>
    intro p cost visited hbusy
    rw [quadraticProbeLoop_busy _ _ _ _ _ _ _
      (by rw [hlen]; exact Nat.mod_lt _ (by omega)) (hbusy (p + 1) (by omega) (by omega))]
    rw [ih (p + 1) (cost + 1) _ (fun j hj1 hj2 => hbusy j (by omega) (by omega))]
    have h3 : cost + 1 + rounds = cost + (rounds + 1) := by omega
    rw [h3, map_range_succ _ (p + 1)]
    simp

/-- The tombstone flag has no effect on the loop of `linearProbe`. -/
theorem linearProbeLoop_flag (hashTable : AssociativeArray) (init : Int) :
    ∀ (fuel : Nat) (index : Int) (cost : Nat) (visited : List Int),
      linearProbeLoop hashTable true init fuel index cost visited =
        linearProbeLoop hashTable false init fuel index cost visited := by
  intro fuel
  induction fuel with
  | zero => intro index cost visited; rfl
  | succ fuel ih =>
    intro index cost visited
    simp only [linearProbeLoop]
    cases hslot : slotAt hashTable.table index with
    | none => rfl
    | some slot =>
      by_cases hv : slot.validity = Validity.HASH_USED
      · have hdel : (Validity.HASH_USED == Validity.HASH_DELETED) = false := by decide
        simp [hv, hdel, ih]
      · simp [hv]

/-- The tombstone flag has no effect on the loop of `doubleHashProbe`. -/
theorem doubleHashProbeLoop_flag (hashTable : AssociativeArray) (stepSize : Nat) :
    ∀ (rounds : Nat) (index : Int) (cost : Nat) (visited : List Int),
      doubleHashProbeLoop hashTable true stepSize rounds index cost visited =
        doubleHashProbeLoop hashTable false stepSize rounds index cost visited := by
  intro rounds
  induction rounds with
  | zero => intro index cost visited; rfl
  | succ rounds ih =>
    intro index cost visited
    simp only [doubleHashProbeLoop]
    cases hslot : slotAt hashTable.table index with
    | none => rfl
    | some slot =>
      by_cases hv : slot.validity = Validity.HASH_USED
      · have hdel : (Validity.HASH_USED == Validity.HASH_DELETED) = false := by decide
        simp [hv, hdel, ih]
      · simp [hv]

/-- The shift form of the loop body of `newHash` is `acc * 33 + 2 * b` under wraparound. -/
theorem newHashStep_eq (w acc b : Nat) :
    newHashStep w acc b = (acc * 33 + 2 * b) % 2 ^ w := by
  unfold newHashStep
  rw [Nat.shiftLeft_eq]
  have e1 : (acc * 2 ^ 5) % 2 ^ w + acc ≡ acc * 2 ^ 5 + acc [MOD 2 ^ w] :=
    (Nat.mod_modEq _ _).add_right _
  have e2 : ((acc * 2 ^ 5) % 2 ^ w + acc) % 2 ^ w + b % 2 ^ w ≡
      acc * 2 ^ 5 + acc + b [MOD 2 ^ w] :=
    ((Nat.mod_modEq _ _).trans e1).add (Nat.mod_modEq _ _)
  have e3 : (((acc * 2 ^ 5) % 2 ^ w + acc) % 2 ^ w + b % 2 ^ w) % 2 ^ w + b % 2 ^ w ≡
      acc * 2 ^ 5 + acc + b + b [MOD 2 ^ w] :=
    ((Nat.mod_modEq _ _).trans e2).add (Nat.mod_modEq _ _)
  have e4 : acc * 2 ^ 5 + acc + b + b = acc * 33 + 2 * b := by ring
  rw [e4] at e3
  exact e3

theorem keyBytes_full (key : AAKeyType) : keyBytes key key.length = key := by
  unfold keyBytes
  apply List.ext_getElem
  · simp
  · intro i h1 h2
    simp [List.getD_eq_getElem?_getD, List.getElem?_eq_getElem h2]

/-- If `doubleHashProbe` returns `-1`, all the positions left in the sequence are in use. -/
theorem doubleHashProbeLoop_full (hashTable : AssociativeArray) (flag : Bool)
    (s stepSize : Nat) (hwf : WellFormed hashTable) :
    ∀ (rounds k cost : Nat) (visited : List Int) (r : ProbeResult),
      doubleHashProbeLoop hashTable flag stepSize rounds
          (((s + k * stepSize) % hashTable.size : Nat) : Int) cost visited = Outcome.ok r →
      r.index = -1 →
      ∀ j, k ≤ j → j < k + rounds →
        isUsed hashTable.table ((s + j * stepSize) % hashTable.size) = true := by
  obtain ⟨hsz, hlen⟩ := hwf
  intro rounds
  induction rounds with
  | zero => intro k cost visited r _ _ j hkj hj; omega
  | succ rounds ih =>
    intro k cost visited r h hr j hkj hj
    by_cases hused : isUsed hashTable.table ((s + k * stepSize) % hashTable.size) = true
    · by_cases hjk : j = k
      · rw [hjk]; exact hused
      · rw [doubleHashProbeLoop_used _ _ _ _ _ _ _ hused, step_position] at h
        exact ih (k + 1) _ _ r h hr j (by omega) (by omega)
    · have hfree : isUsed hashTable.table ((s + k * stepSize) % hashTable.size) = false := by
        simpa using hused
      rw [doubleHashProbeLoop_free _ _ _ _ _ _ _
        (by rw [hlen]; exact Nat.mod_lt _ (by omega)) hfree] at h
      injection h with h
      rw [← h] at hr
      simp only at hr
      omega

/-- With a prime table size and a step in `(0, n)`, two positions of the double-hash
sequence among the first `n` coincide only if they are the same position. -/
theorem step_position_injective {n s stepSize j k : Nat} (hp : Nat.Prime n)
    (h0 : 0 < stepSize) (hlt : stepSize < n) (hj : j < n) (hk : k < n)
    (h : (s + j * stepSize) % n = (s + k * stepSize) % n) : j = k := by
  have hco : Nat.gcd n stepSize = 1 :=
    (Nat.Prime.coprime_iff_not_dvd hp).2 (Nat.not_dvd_of_pos_of_lt h0 hlt)
  have h1 : j * stepSize ≡ k * stepSize [MOD n] := Nat.ModEq.add_left_cancel' s h
  have h2 : j ≡ k [MOD n] := Nat.ModEq.cancel_right_of_coprime hco h1
  exact Nat.ModEq.eq_of_lt_of_lt h2 hj hk

/-- With a prime table size and a step in `(0, n)`, the first `n` positions of the
double-hash sequence reach every slot. -/
theorem step_position_surjective {n s stepSize : Nat} (hp : Nat.Prime n)
    (h0 : 0 < stepSize) (hlt : stepSize < n) (i : Nat) (hi : i < n) :
    ∃ k, k < n ∧ (s + k * stepSize) % n = i := by
  have hn : 0 < n := hp.pos
  have hinj : Function.Injective
      (fun k : Fin n => (⟨(s + k.val * stepSize) % n, Nat.mod_lt _ hn⟩ : Fin n)) := by
    intro a b hab
    have hval := congrArg Fin.val hab
    exact Fin.ext (step_position_injective hp h0 hlt a.isLt b.isLt hval)
  obtain ⟨k, hk⟩ := (Finite.injective_iff_surjective.1 hinj) ⟨i, hi⟩
  exact ⟨k.val, k.isLt, congrArg Fin.val hk⟩

/-! ## Lemmas on the cost counters -/

theorem intAdd_exact {a b : Int} (h1 : INT_MIN ≤ a + b) (h2 : a + b ≤ INT_MAX) :
    intAdd a b = a + b := by
  unfold INT_MIN at h1
  unfold INT_MAX at h2
  unfold intAdd
  omega

theorem intAdd_range (a b : Int) : INT_MIN ≤ intAdd a b ∧ intAdd a b ≤ INT_MAX := by
  unfold intAdd INT_MIN INT_MAX
  omega

theorem intAdd_intAdd (a b c : Int) : intAdd (intAdd a b) c = intAdd a (b + c) := by
  unfold intAdd
  omega

theorem intAdd_zero {a : Int} (h1 : INT_MIN ≤ a) (h2 : a ≤ INT_MAX) : intAdd a 0 = a := by
  rw [intAdd_exact (by simpa using h1) (by simpa using h2), Int.add_zero]

/-- The steps `linearProbe` adds to its cost counter are at most the table size. -/
theorem linearProbeLoop_cost (hashTable : AssociativeArray) (flag : Bool) (s : Nat)
    (hwf : WellFormed hashTable) (hs : s < hashTable.size) :
    ∀ (fuel k cost : Nat) (visited : List Int) (r : ProbeResult), k < hashTable.size →
      linearProbeLoop hashTable flag (s : Int) fuel (((s + k) % hashTable.size : Nat) : Int)
          cost visited = Outcome.ok r →
      r.cost + k + 1 ≤ cost + hashTable.size ∨ (r.index = -1 ∧ r.cost + k ≤ cost + hashTable.size) := by
  obtain ⟨hsz, hlen⟩ := hwf
  intro fuel
  induction fuel with
  | zero => intro k cost visited r _ h; simp [linearProbeLoop] at h
  | succ fuel ih =>
    intro k cost visited r hk h
    by_cases hused : isUsed hashTable.table ((s + k) % hashTable.size) = true
    · rw [linearProbeLoop_used _ _ _ _ _ _ _ hused, Nat.mod_add_mod, Nat.add_assoc] at h
      by_cases hlast : k + 1 = hashTable.size
      · rw [hlast, if_pos (add_mod_self_start hs)] at h
        injection h with h
        rw [← h]
        right
        exact ⟨rfl, by simp only; omega⟩
      · have hne : (s + (k + 1)) % hashTable.size ≠ s :=
          add_mod_ne_start hs (by omega) (by omega)
        rw [if_neg hne] at h
        rcases ih (k + 1) _ _ r (by omega) h with h1 | ⟨h1, h2⟩
        · left; omega
        · right; exact ⟨h1, by omega⟩
    · have hfree : isUsed hashTable.table ((s + k) % hashTable.size) = false := by
        simpa using hused
      rw [linearProbeLoop_free _ _ _ _ _ _ _ (by rw [hlen]; exact Nat.mod_lt _ (by omega)) hfree]
        at h
      injection h with h
      rw [← h]
      left
      simp only
      omega

/-- The steps `quadraticProbe` adds to its cost counter when it finds a slot are fewer
than the rounds it was given. -/
theorem quadraticProbeLoop_cost (hashTable : AssociativeArray) (startIndex hashSize : Int) :
    ∀ (rounds : Nat) (probingIndex : Int) (cost : Nat) (visited : List Int) (r : ProbeResult),
      quadraticProbeLoop hashTable startIndex hashSize rounds probingIndex cost visited
          = Outcome.ok r →
      r.cost + 1 ≤ cost + rounds ∨ (r.index = -1 ∧ r.cost ≤ cost + rounds) := by
  intro rounds
  induction rounds with
  | zero =>
    intro probingIndex cost visited r h
    simp only [quadraticProbeLoop] at h
    injection h with h
    rw [← h]
    exact Or.inr ⟨rfl, le_refl _⟩
  | succ rounds ih =>
    intro probingIndex cost visited r h
    simp only [quadraticProbeLoop] at h
    split at h
    · exact Outcome.noConfusion h
    · split at h
      · injection h with h
        rw [← h]
        left
        simp only
        omega
      · rcases ih _ _ _ r h with h1 | ⟨h1, h2⟩
        · left; omega
        · right; exact ⟨h1, by omega⟩

/-- The steps `doubleHashProbe` adds to its cost counter when it finds a slot are fewer
than the rounds it was given. -/
theorem doubleHashProbeLoop_cost (hashTable : AssociativeArray) (flag : Bool) (stepSize : Nat) :
    ∀ (rounds : Nat) (index : Int) (cost : Nat) (visited : List Int) (r : ProbeResult),
      doubleHashProbeLoop hashTable flag stepSize rounds index cost visited = Outcome.ok r →
      r.cost + 1 ≤ cost + rounds ∨ (r.index = -1 ∧ r.cost ≤ cost + rounds) := by
  intro rounds
  induction rounds with
  | zero =>
    intro index cost visited r h
    simp only [doubleHashProbeLoop] at h
    injection h with h
    rw [← h]
    exact Or.inr ⟨rfl, le_refl _⟩
  | succ rounds ih =>
    intro index cost visited r h
    simp only [doubleHashProbeLoop] at h
    split at h
    · exact Outcome.noConfusion h
    · split at h
      · injection h with h
        rw [← h]
        left
        simp only
        omega
      · split at h
        · injection h with h
          rw [← h]
          exact Or.inr ⟨rfl, by simp only; omega⟩
        · rcases ih _ _ _ r h with h1 | ⟨h1, h2⟩
          · left; omega
          · right; exact ⟨h1, by omega⟩

/-- A probe called by `aaInsert` with cost 0 from an index in range adds at most `size`
steps, and fewer when it finds a slot. -/
theorem applyProbe_cost (w fuel : Nat) (p : HashProbe) (hashTable : AssociativeArray)
    (key : AAKeyType) (keylen s : Nat) (flag : Bool) (r : ProbeResult)
    (hwf : WellFormed hashTable) (hs : s < hashTable.size)
    (h : applyProbe w fuel p hashTable key keylen (s : Int) flag 0 = Outcome.ok r) :
    r.cost ≤ hashTable.size := by
  have hsz := hwf.1
  cases p with
  | linearProbe =>
    have h0 : (s + 0) % hashTable.size = s := by rw [Nat.add_zero, Nat.mod_eq_of_lt hs]
    simp only [applyProbe, linearProbe] at h
    have := linearProbeLoop_cost hashTable flag s hwf hs fuel 0 0 [] r (by omega)
      (by rw [h0]; exact h)
    omega
  | quadraticProbe =>
    simp only [applyProbe, quadraticProbe] at h
    have := quadraticProbeLoop_cost hashTable _ _ _ _ _ _ r h
    omega
  | doubleHashProbe =>
    simp only [applyProbe, doubleHashProbe] at h
    have := doubleHashProbeLoop_cost hashTable flag _ _ _ _ _ r h
    omega

/-- The loop of `aaInsert` never ends on a slot in use whose key does not match. -/
theorem aaInsertLoop_stuck (aarray : AssociativeArray) (key : AAKeyType) (keylen value : Nat)
    (index : Int) (slot : KeyDataPair) (hslot : slotAt aarray.table index = some slot)
    (hused : slot.validity = Validity.HASH_USED)
    (hmiss : doKeysMatch key keylen slot.key slot.keylen = false) :
    ∀ (fuel cost : Nat),
      aaInsertLoop aarray key keylen value index fuel cost = Outcome.outOfFuel := by
  intro fuel
  induction fuel with
  | zero => intro cost; rfl
  | succ fuel ih =>
    intro cost
    simp only [aaInsertLoop, hslot, hused, hmiss]
    exact ih (cost + 1)

/-- A returning run of the loop of `aaInsert` adds the incoming cost to `insertCost` or
leaves it alone; the other counters, `size` and the number of slots are unchanged. -/
theorem aaInsertLoop_cost (aarray : AssociativeArray) (key : AAKeyType) (keylen value : Nat)
    (index : Int) (fuel cost : Nat) (i : Int) (t1 : AssociativeArray)
    (h : aaInsertLoop aarray key keylen value index fuel cost = Outcome.ok (i, t1)) :
    (t1.insertCost = aarray.insertCost ∨ t1.insertCost = intAdd aarray.insertCost (cost : Int)) ∧
    t1.searchCost = aarray.searchCost ∧ t1.deleteCost = aarray.deleteCost ∧
    t1.size = aarray.size ∧ t1.table.length = aarray.table.length := by
  cases fuel with
  | zero => simp [aaInsertLoop] at h
  | succ fuel =>
    simp only [aaInsertLoop] at h
    split at h
    · exact Outcome.noConfusion h
    · rename_i slot hslot
      split at h
      · rename_i hused
        split at h
        · injection h with h
          injection h with _ ht
          rw [← ht]
          exact ⟨Or.inl rfl, rfl, rfl, rfl, by simp⟩
        · rename_i hmatch
          rw [aaInsertLoop_stuck aarray key keylen value index slot hslot hused
            (by simpa using hmatch)] at h
          exact Outcome.noConfusion h
      · injection h with h
        injection h with _ ht
        rw [← ht]
        exact ⟨Or.inr rfl, rfl, rfl, rfl, by simp⟩

/-- The loop of `aaDelete` never ends when every slot is in use with a key that does not
match. -/
theorem aaDeleteLoop_stuck (aarray : AssociativeArray) (key : AAKeyType) (keylen size : Nat)
    (hsize : 0 < size)
    (hall : ∀ i, i < size → ∃ slot, slotAt aarray.table (i : Int) = some slot ∧
      slot.validity = Validity.HASH_USED ∧ doKeysMatch key keylen slot.key slot.keylen = false) :
    ∀ (fuel i cost : Nat), i < size →
      aaDeleteLoop aarray key keylen size fuel (i : Int) cost = Outcome.outOfFuel := by
  intro fuel
  induction fuel with
  | zero => intro i cost _; rfl
  | succ fuel ih =>
    intro i cost hi
    obtain ⟨slot, hslot, hused, hmiss⟩ := hall i hi
    simp only [aaDeleteLoop, hslot, hused, hmiss, tmod_natCast_succ]
    exact ih _ _ (Nat.mod_lt _ hsize)

/-- A returning run of the loop of `aaDelete` from the home index `h` adds at most `size`
steps to `deleteCost`. -/
theorem aaDeleteLoop_steps (aarray : AssociativeArray) (key : AAKeyType) (keylen : Nat)
    (h0 : Nat) (hwf : WellFormed aarray) (hh : h0 < aarray.size) :
    ∀ (fuel k cost v : Nat) (t1 : AssociativeArray), k ≤ aarray.size →
      (∀ j, j < k → ∃ slot,
        slotAt aarray.table (((h0 + j) % aarray.size : Nat) : Int) = some slot ∧
        slot.validity = Validity.HASH_USED ∧
        doKeysMatch key keylen slot.key slot.keylen = false) →
      aaDeleteLoop aarray key keylen aarray.size fuel (((h0 + k) % aarray.size : Nat) : Int) cost
          = Outcome.ok (v, t1) →
      ∃ c : Nat, c + k ≤ aarray.size ∧
        t1.deleteCost = intAdd aarray.deleteCost ((cost + c : Nat) : Int) := by
  obtain ⟨hsz, hlen⟩ := hwf
  intro fuel
  induction fuel with
  | zero => intro k cost v t1 _ _ h; simp [aaDeleteLoop] at h
  | succ fuel ih =>
    intro k cost v t1 hk hblocked h
    have hkn : k < aarray.size := by
      by_contra hge
      have hkeq : k = aarray.size := by omega
      have hall : ∀ i, i < aarray.size → ∃ slot, slotAt aarray.table (i : Int) = some slot ∧
          slot.validity = Validity.HASH_USED ∧
          doKeysMatch key keylen slot.key slot.keylen = false := by
        intro i hi
        obtain ⟨j, hj, hji⟩ := exists_offset hh hi
        have := hblocked j (by omega)
        rw [hji] at this
        exact this
      rw [aaDeleteLoop_stuck aarray key keylen aarray.size (by omega) hall _ _ _
        (Nat.mod_lt _ (by omega))] at h
      exact Outcome.noConfusion h
    simp only [aaDeleteLoop] at h
    split at h
    · exact Outcome.noConfusion h
    · rename_i slot hslot
      split at h
      · rename_i hused
        split at h
        · injection h with h
          injection h with _ ht
          rw [← ht]
          exact ⟨1, by omega, rfl⟩
        · rename_i hmatch
          rw [tmod_natCast_succ, Nat.mod_add_mod, Nat.add_assoc] at h
          obtain ⟨c, hc, hcost⟩ := ih (k + 1) (cost + 1) v t1 (by omega)
            (by
              intro j hj
              by_cases hjk : j = k
              · rw [hjk]; exact ⟨slot, hslot, hused, by simpa using hmatch⟩
              · exact hblocked j (by omega)) h
          refine ⟨c + 1, by omega, ?_⟩
          rw [hcost]
          have : cost + 1 + c = cost + (c + 1) := by omega
          rw [this]
      · injection h with h
        injection h with _ ht
        rw [← ht]
        exact ⟨0, by omega, rfl⟩

/-- A returning call on a well-formed table whose counters are valid `int`s: the table
stays so, `size` is kept, the counters of the other kinds are untouched, and the steps
added to the three counters, as `int` additions, are at most `size` together. -/
theorem applyOperation_step (w fuel : Nat) (aarray t1 : AssociativeArray) (op : Operation)
    (hwf : WellFormed aarray) (hrange : CostsInRange aarray)
    (h : applyOperation w fuel aarray op = Outcome.ok t1) :
    WellFormed t1 ∧ CostsInRange t1 ∧ t1.size = aarray.size ∧ foreignCostsKept op aarray t1 ∧
    ∃ i s d : Nat, i + s + d ≤ aarray.size ∧
      t1.insertCost = intAdd aarray.insertCost (i : Int) ∧
      t1.searchCost = intAdd aarray.searchCost (s : Int) ∧
      t1.deleteCost = intAdd aarray.deleteCost (d : Int) := by
  obtain ⟨hsz, hlen⟩ := hwf
  obtain ⟨⟨hi1, hi2⟩, ⟨hs1, hs2⟩, ⟨hd1, hd2⟩⟩ := hrange
  have zi := intAdd_zero hi1 hi2
  have zs := intAdd_zero hs1 hs2
  have zd := intAdd_zero hd1 hd2
  cases op with
  | insert key keylen value =>
    simp only [applyOperation, aaInsert] at h
    split at h
    · rename_i r hr
      split at hr
      · rename_i pr hprobe
        injection h with h
        have hcost := applyProbe_cost w fuel aarray.hashProbe aarray key keylen _ false pr
          ⟨hsz, hlen⟩ (applyHash_lt w _ key keylen _ (by omega)) hprobe
        obtain ⟨hins, hsearch, hdel, hsize, hlength⟩ :=
          aaInsertLoop_cost _ _ _ _ _ _ _ r.1 r.2 hr
        rw [← h]
        refine ⟨⟨by rw [hsize]; exact hsz, by rw [hlength, hsize]; exact hlen⟩, ?_, hsize,
          ⟨hsearch, hdel⟩, ?_⟩
        · refine ⟨?_, by rw [hsearch]; exact ⟨hs1, hs2⟩, by rw [hdel]; exact ⟨hd1, hd2⟩⟩
          rcases hins with hins | hins
          · rw [hins]; exact ⟨hi1, hi2⟩
          · rw [hins]; exact intAdd_range _ _
        · rcases hins with hins | hins
          · exact ⟨0, 0, 0, by omega, by rw [hins]; exact zi.symm,
              by rw [hsearch]; exact zs.symm, by rw [hdel]; exact zd.symm⟩
          · exact ⟨pr.cost, 0, 0, by omega, hins,
              by rw [hsearch]; exact zs.symm, by rw [hdel]; exact zd.symm⟩
      · exact Outcome.noConfusion hr
      · exact Outcome.noConfusion hr
    · exact Outcome.noConfusion h
    · exact Outcome.noConfusion h
  | lookup key keylen =>
    simp only [applyOperation] at h
    have hlt := applyHash_lt w aarray.hashAlgorithmPrimary key keylen aarray.size (by omega)
    have hlt2 : ((applyHash w aarray.hashAlgorithmPrimary key keylen aarray.size : Nat) : Int) <
        (aarray.table.length : Int) := by rw [hlen]; exact_mod_cast hlt
    obtain ⟨slot, hslot⟩ := slotAt_in_range (Int.ofNat_nonneg _) hlt2
    rw [aaLookup_of_slot w aarray key keylen slot hsz hslot] at h
    injection h with h
    rw [← h]
    by_cases hm : doKeysMatch key keylen slot.key slot.keylen = true
    · rw [if_pos hm]
      refine ⟨⟨hsz, hlen⟩, ⟨⟨hi1, hi2⟩, intAdd_range _ _, ⟨hd1, hd2⟩⟩, rfl, ⟨rfl, rfl⟩, ?_⟩
      exact ⟨0, 1, 0, by omega, zi.symm, rfl, zd.symm⟩
    · rw [if_neg hm]
      refine ⟨⟨hsz, hlen⟩, ⟨⟨hi1, hi2⟩, intAdd_range _ _, ⟨hd1, hd2⟩⟩, rfl, ⟨rfl, rfl⟩, ?_⟩
      exact ⟨0, aarray.size, 0, by omega, zi.symm, rfl, zd.symm⟩
  | delete key keylen =>
    simp only [applyOperation, aaDelete] at h
    split at h
    · rename_i r hr
      injection h with h
      have hlt := applyHash_lt w aarray.hashAlgorithmPrimary key keylen aarray.size (by omega)
      have h0 : (applyHash w aarray.hashAlgorithmPrimary key keylen aarray.size + 0)
          % aarray.size = applyHash w aarray.hashAlgorithmPrimary key keylen aarray.size := by
        rw [Nat.add_zero, Nat.mod_eq_of_lt hlt]
      obtain ⟨c, hc, hcost⟩ := aaDeleteLoop_steps aarray key keylen _ ⟨hsz, hlen⟩ hlt fuel 0 0
        r.1 r.2 (Nat.zero_le _) (fun j hj => absurd hj (Nat.not_lt_zero j))
        (by rw [h0]; exact hr)
      rw [Nat.zero_add] at hcost
      have hframe : r.2.insertCost = aarray.insertCost ∧ r.2.searchCost = aarray.searchCost ∧
          r.2.size = aarray.size ∧ r.2.table.length = aarray.table.length := by
        rcases aaDeleteLoop_ok _ _ _ _ _ _ _ r.1 r.2 hr with
          ⟨c1, _, ht⟩ | ⟨p, sl, c1, _, _, _, _, ht⟩
        · rw [ht]; exact ⟨rfl, rfl, rfl, rfl⟩
        · rw [ht]; exact ⟨rfl, rfl, rfl, by simp⟩
      obtain ⟨hins, hsearch, hsize, hlength⟩ := hframe
      rw [← h]
      refine ⟨⟨by rw [hsize]; exact hsz, by rw [hlength, hsize]; exact hlen⟩,
        ⟨by rw [hins]; exact ⟨hi1, hi2⟩, by rw [hsearch]; exact ⟨hs1, hs2⟩,
          by rw [hcost]; exact intAdd_range _ _⟩, hsize, ⟨hins, hsearch⟩, ?_⟩
      exact ⟨0, 0, c, by omega, by rw [hins]; exact zi.symm, by rw [hsearch]; exact zs.symm,
        hcost⟩
    · exact Outcome.noConfusion h
    · exact Outcome.noConfusion h

/-- Along a returning sequence of calls from a well-formed table whose counters are valid
`int`s, the steps added to the three counters, as `int` additions, are together at most
`size` per call. -/
theorem runOperations_steps (w fuel : Nat) :
    ∀ (ops : List Operation) (aarray t1 : AssociativeArray),
      WellFormed aarray → CostsInRange aarray →
      runOperations w fuel aarray ops = Outcome.ok t1 →
      ∃ i s d : Nat, i + s + d ≤ ops.length * aarray.size ∧
        t1.insertCost = intAdd aarray.insertCost (i : Int) ∧
        t1.searchCost = intAdd aarray.searchCost (s : Int) ∧
        t1.deleteCost = intAdd aarray.deleteCost (d : Int) := by
  intro ops
  induction ops with
  | nil =>
    intro aarray t1 _ hrange h
    simp only [runOperations] at h
    injection h with h
    obtain ⟨⟨hi1, hi2⟩, ⟨hs1, hs2⟩, ⟨hd1, hd2⟩⟩ := hrange
    rw [← h]
    exact ⟨0, 0, 0, by simp, (intAdd_zero hi1 hi2).symm, (intAdd_zero hs1 hs2).symm,
      (intAdd_zero hd1 hd2).symm⟩
  | cons op ops ih =>
    intro aarray t1 hwf hrange h
    simp only [runOperations] at h
    split at h
    · rename_i t2 h2
      obtain ⟨hwf2, hrange2, hsize, _, i1, s1, d1, hb1, hi1, hs1, hd1⟩ :=
        applyOperation_step w fuel aarray t2 op hwf hrange h2
      obtain ⟨i2, s2, d2, hb2, hi2, hs2, hd2⟩ := ih t2 t1 hwf2 hrange2 h
      rw [hsize] at hb2
      refine ⟨i1 + i2, s1 + s2, d1 + d2, ?_, ?_, ?_, ?_⟩
      · rw [List.length_cons, Nat.succ_mul]; omega
      · rw [hi2, hi1, intAdd_intAdd]; push_cast; rfl
      · rw [hs2, hs1, intAdd_intAdd]; push_cast; rfl
      · rw [hd2, hd1, intAdd_intAdd]; push_cast; rfl
    · exact Outcome.noConfusion h
    · exact Outcome.noConfusion h

/-- Looking up `n` times a key that the home slot does not hold adds `n * size` to
`searchCost`, as an `int` addition, and changes nothing else. -/
theorem runOperations_lookup_misses (w fuel : Nat) (aarray : AssociativeArray)
    (key : AAKeyType) (keylen : Nat) (slot : KeyDataPair) (hsz : 1 ≤ aarray.size)
    (hslot : slotAt aarray.table
      (applyHash w aarray.hashAlgorithmPrimary key keylen aarray.size) = some slot)
    (hmiss : doKeysMatch key keylen slot.key slot.keylen = false) :
    ∀ (n : Nat) (c : Int), INT_MIN ≤ c → c ≤ INT_MAX →
      runOperations w fuel { aarray with searchCost := c }
          (List.replicate n (Operation.lookup key keylen)) =
        Outcome.ok { aarray with searchCost := intAdd c ((n * aarray.size : Nat) : Int) } := by
  intro n
  induction n with
  | zero =>
    intro c h1 h2
    simp only [List.replicate, runOperations, Nat.zero_mul, Nat.cast_zero]
    rw [intAdd_zero h1 h2]
  | succ n ih =>
    intro c h1 h2
    have hstep := aaLookup_of_slot w { aarray with searchCost := c } key keylen slot hsz hslot
    simp only [hmiss] at hstep
    simp only [List.replicate, runOperations, applyOperation, hstep]
    have hr := intAdd_range c (aarray.size : Int)
    have := ih (intAdd c (aarray.size : Int)) hr.1 hr.2
    simp only [Bool.false_eq_true, if_false] at this ⊢
    rw [this, intAdd_intAdd]
    have hcast : ((aarray.size : Nat) : Int) + ((n * aarray.size : Nat) : Int) =
        (((n + 1) * aarray.size : Nat) : Int) := by
      rw [Nat.succ_mul]; push_cast; omega
    rw [hcast]

/-! ## The claims -/

/-- C1 (round trip), evaluated on its own scenario: size 11, length hash, linear probing.
Both inserts succeed, "cat" in slot 3 and "dog" in slot 4, and `aaLookup` of "cat"
returns 1; but `aaLookup` of "dog" compares the home slot 3 only and returns `NULL`
although "dog" was stored with value 2 and never deleted. -/
theorem lookup_misses_colliding_key :
    ∃ t0 t1 t2 t3 t4,
      aaCreateAssociativeArray smallPrimes 10 "linear" "len" "sum" = some t0 ∧
      aaInsert 32 11 t0 keyCat 3 1 = Outcome.ok (3, t1) ∧
      aaInsert 32 11 t1 keyDog 3 2 = Outcome.ok (4, t2) ∧
      aaLookup 32 t2 keyCat 3 = Outcome.ok (1, t3) ∧
      aaLookup 32 t3 keyDog 3 = Outcome.ok (0, t4) :=
  ⟨_, _, _, _, _, rfl, rfl, rfl, rfl, rfl⟩

/-- C2 (update, not duplicate), evaluated: in the empty table of size 11 with length hash
and linear probing, `aaInsert` of "cat" with value 1 and then of "cat" with value 2 puts
the second copy in slot 4; `nEntries` goes from 1 to 2, two `HASH_USED` slots hold the
key, and the value found for "cat" is still 1. -/
theorem second_insert_duplicates_key :
    ∃ t0 t1 t2 t3,
      aaCreateAssociativeArray smallPrimes 10 "linear" "len" "sum" = some t0 ∧
      aaInsert 32 11 t0 keyCat 3 1 = Outcome.ok (3, t1) ∧
      aaInsert 32 11 t1 keyCat 3 2 = Outcome.ok (4, t2) ∧
      t1.nEntries = 1 ∧ t2.nEntries = 2 ∧
      usedCopies t2.table keyCat 3 = 2 ∧
      aaLookup 32 t2 keyCat 3 = Outcome.ok (1, t3) :=
  ⟨_, _, _, _, rfl, rfl, rfl, rfl, rfl, by decide, rfl⟩

/-- C3 (delete then absent, lookup), evaluated on its own scenario: after `aaInsert` of
"cat" with value 1, `aaDelete` of "cat" returns 1 and leaves no `HASH_USED` slot, and the
`aaLookup` of "cat" right after it still returns 1 instead of `NULL`: it compares the key
kept in the tombstone and never reads the validity. -/
theorem lookup_finds_tombstoned_key :
    ∃ t0 t1 t2 t3,
      aaCreateAssociativeArray smallPrimes 10 "linear" "len" "sum" = some t0 ∧
      aaInsert 32 11 t0 keyCat 3 1 = Outcome.ok (3, t1) ∧
      aaDelete 32 11 t1 keyCat 3 = Outcome.ok (1, t2) ∧
      usedCount t2.table = 0 ∧
      aaLookup 32 t2 keyCat 3 = Outcome.ok (1, t3) :=
  ⟨_, _, _, _, rfl, rfl, rfl, by decide, rfl⟩

/-- C4 (delete then absent, second delete): whenever `aaDelete` of a key returns, in
particular when it found a match and tombstoned it, and whatever the table holds
(duplicate copies of the key included), a second `aaDelete` of the same key right after it
returns with the same fuel, reports `NULL`, and leaves every slot, `nEntries` and `size`
as they were. -/
theorem aaDelete_twice (w fuel : Nat) (aarray : AssociativeArray) (key : AAKeyType) (keylen : Nat)
    (v : Nat) (t1 : AssociativeArray)
    (hfirst : aaDelete w fuel aarray key keylen = Outcome.ok (v, t1)) :
    ∃ t2, aaDelete w fuel t1 key keylen = Outcome.ok (0, t2) ∧ t2.table = t1.table ∧
      t2.nEntries = t1.nEntries ∧ t2.size = t1.size := by
  unfold aaDelete at hfirst ⊢
  have hfields : t1.size = aarray.size ∧ t1.hashAlgorithmPrimary = aarray.hashAlgorithmPrimary := by
    rcases aaDeleteLoop_ok _ _ _ _ _ _ _ _ _ hfirst with ⟨c1, _, ht⟩ | ⟨p, s, c1, _, _, _, _, ht⟩ <;>
      rw [ht] <;> exact ⟨rfl, rfl⟩
  obtain ⟨c, hc⟩ := aaDeleteLoop_again _ _ _ _ _ _ _ 0 _ _ hfirst
  rw [← hfields.1, ← hfields.2] at hc
  exact ⟨{ t1 with deleteCost := intAdd t1.deleteCost (c : Int) }, hc, rfl, rfl, rfl⟩

/-- C4 at a table that holds the key "a" twice: the first `aaDelete` returns the value 1
of the home slot, the second one returns `NULL` and changes no slot. -/
theorem aaDelete_twice_witness :
    aaDelete 32 2 twiceATable keyA 1 = Outcome.ok (1, twiceAAfterDelete) ∧
    ∃ t2, aaDelete 32 2 twiceAAfterDelete keyA 1 = Outcome.ok (0, t2) ∧
      t2.table = twiceAAfterDelete.table ∧ t2.nEntries = twiceAAfterDelete.nEntries ∧
      t2.size = twiceAAfterDelete.size :=
  ⟨rfl, aaDelete_twice 32 2 twiceATable keyA 1 1 twiceAAfterDelete rfl⟩

/-- C5 (entryCount invariant), evaluated: from a freshly created table, `aaInsert` of
"cat" followed by `aaDelete` of "cat" leaves `nEntries` at 1 while no slot is `HASH_USED`;
`aaDelete` never decrements `nEntries`. -/
theorem delete_keeps_nEntries :
    ∃ t0 t1 t2,
      aaCreateAssociativeArray smallPrimes 10 "linear" "len" "sum" = some t0 ∧
      aaInsert 32 11 t0 keyCat 3 1 = Outcome.ok (3, t1) ∧
      aaDelete 32 11 t1 keyCat 3 = Outcome.ok (1, t2) ∧
      t2.nEntries = 1 ∧ usedCount t2.table = 0 :=
  ⟨_, _, _, rfl, rfl, rfl, rfl, by decide⟩

/-- C6 (probe exhaustion), evaluated: the table of size 2 filled by two inserts has every
slot `HASH_USED`, and the key "c" is not stored. Under each of the three probe functions
the probe returns `-1` and `aaInsert` then reads `table[-1]`: an access outside
`[0, size)` in place of the reported failure. -/
theorem insert_into_full_table_reads_out_of_bounds :
    (∃ t0 t1,
      aaCreateAssociativeArray smallPrimes 1 "linear" "len" "sum" = some t0 ∧
      aaInsert 32 2 t0 keyA 1 1 = Outcome.ok (1, t1) ∧
      aaInsert 32 2 t1 keyB 1 2 = Outcome.ok (0, fullTable)) ∧
    WellFormed fullTable ∧ usedCount fullTable.table = fullTable.size ∧
    fullTable.nEntries = fullTable.size ∧ usedCopies fullTable.table keyC 1 = 0 ∧
    ∀ (p : HashProbe) (extra : Nat),
      aaInsert 32 (extra + 2) { fullTable with hashProbe := p } keyC 1 3 =
        Outcome.outOfBounds (-1) :=
  ⟨⟨_, _, rfl, rfl, rfl⟩, by decide, by decide, rfl, by decide,
    fun p extra => by cases p <;> rfl⟩

/-- C7 (hash range): for every key, length, index width and table size above 0, each of
`hashByLength`, `hashBySum` and `newHash` returns an index below `size`; and the index
depends on nothing but the first `keyLength` key bytes, the length and the size. -/
theorem hash_range_deterministic (w : Nat) (key key2 : AAKeyType) (keyLength size : Nat)
    (hsize : 0 < size) :
    (hashByLength key keyLength size < size ∧ hashBySum w key keyLength size < size ∧
      newHash w key keyLength size < size) ∧
    (key2.take keyLength = key.take keyLength →
      hashByLength key2 keyLength size = hashByLength key keyLength size ∧
      hashBySum w key2 keyLength size = hashBySum w key keyLength size ∧
      newHash w key2 keyLength size = newHash w key keyLength size) := by
  refine ⟨⟨Nat.mod_lt _ hsize, Nat.mod_lt _ hsize, Nat.mod_lt _ hsize⟩, ?_⟩
  intro hsame
  refine ⟨rfl, ?_, ?_⟩
  · unfold hashBySum
    congr 1
    apply List.foldl_ext
    intro sum i hi
    rw [getD_eq_of_take_eq key key2 keyLength i hsame (List.mem_range.1 hi)]
  · unfold newHash
    congr 1
    apply List.foldl_ext
    intro hashValue i hi
    rw [getD_eq_of_take_eq key key2 keyLength i hsame (List.mem_range.1 hi)]

/-- C7 at the key "cat" and size 11, against a buffer that continues after the key. -/
theorem hash_range_deterministic_witness :
    0 < 11 ∧
    ((hashByLength keyCat 3 11 < 11 ∧ hashBySum 32 keyCat 3 11 < 11 ∧
      newHash 32 keyCat 3 11 < 11) ∧
    (([99, 97, 116, 0, 7] : AAKeyType).take 3 = keyCat.take 3 →
      hashByLength [99, 97, 116, 0, 7] 3 11 = hashByLength keyCat 3 11 ∧
      hashBySum 32 [99, 97, 116, 0, 7] 3 11 = hashBySum 32 keyCat 3 11 ∧
      newHash 32 [99, 97, 116, 0, 7] 3 11 = newHash 32 keyCat 3 11)) :=
  ⟨by decide, hash_range_deterministic 32 keyCat [99, 97, 116, 0, 7] 3 11 (by decide)⟩

/-- C8 (bounded probing): in a well-formed table of size `n`, for every key, start index
in `[0, n)`, flag value and incoming cost, each of `linearProbe`, `quadraticProbe` and
`doubleHashProbe` returns once it has `n` units of fuel; it has read at most `n` slots,
every index it read is in `[0, n)`, and its result is `-1` or an index in `[0, n)`. -/
theorem probes_bounded (w fuel : Nat) (p : HashProbe) (hashTable : AssociativeArray)
    (key : AAKeyType) (keylen : Nat) (startIndex : Int) (invalidEndsSearch : Bool) (cost : Nat)
    (hwf : WellFormed hashTable) (hs0 : 0 ≤ startIndex) (hs1 : startIndex < hashTable.size)
    (hfuel : hashTable.size ≤ fuel) :
    ∃ r, applyProbe w fuel p hashTable key keylen startIndex invalidEndsSearch cost = Outcome.ok r ∧
      r.visited.length ≤ hashTable.size ∧
      (∀ i ∈ r.visited, 0 ≤ i ∧ i < (hashTable.size : Int)) ∧
      (r.index = -1 ∨ (0 ≤ r.index ∧ r.index < (hashTable.size : Int))) := by
  cases p with
  | linearProbe =>
    exact linearProbeLoop_bounded hashTable invalidEndsSearch startIndex hwf hs0 hs1 fuel 0
      startIndex cost [] (by have := hwf.1; omega)
      (by simpa using (Int.emod_eq_of_lt hs0 hs1).symm) (by omega) rfl (by simp)
  | quadraticProbe =>
    exact quadraticProbeLoop_bounded hashTable startIndex hwf hs0 hashTable.size 0 cost []
      (by simp) (by simp)
  | doubleHashProbe =>
    exact doubleHashProbeLoop_bounded hashTable invalidEndsSearch _ hwf hashTable.size startIndex
      cost [] hs0 hs1 (by simp) (by simp)

/-- C8 at the table with three used slots, a tombstone and an empty slot, from start
index 4 under linear probing: the probe reads slots 4, 0 and 1 and returns 1. -/
theorem probes_bounded_witness :
    (WellFormed mixedTable ∧ (0 : Int) ≤ 4 ∧ (4 : Int) < mixedTable.size ∧ mixedTable.size ≤ 5) ∧
    applyProbe 32 5 HashProbe.linearProbe mixedTable keyA 1 4 false 0 =
      Outcome.ok { index := 1, cost := 2, visited := [4, 0, 1] } ∧
    ∃ r, applyProbe 32 5 HashProbe.linearProbe mixedTable keyA 1 4 false 0 = Outcome.ok r ∧
      r.visited.length ≤ mixedTable.size ∧
      (∀ i ∈ r.visited, 0 ≤ i ∧ i < (mixedTable.size : Int)) ∧
      (r.index = -1 ∨ (0 ≤ r.index ∧ r.index < (mixedTable.size : Int))) :=
  ⟨⟨by decide, by decide, by decide, by decide⟩, rfl,
    probes_bounded 32 5 HashProbe.linearProbe mixedTable keyA 1 4 false 0
      (by decide) (by decide) (by decide) (by decide)⟩

/-- C9 (iterate): in a well-formed table `aaIterateAction` returns, and its return value,
final `userdata` and sequence of calls are those of calling the user function on the
(key, length, value) triples of the `HASH_USED` slots in ascending slot order, cut off
right after the first negative result: the calls are a prefix of those triples, the
return value is `1` or `-1`, and it is `1` only if every `HASH_USED` slot was passed. -/
theorem aaIterateAction_spec {σ : Type} (aarray : AssociativeArray)
    (userfunction : AAKeyType → Nat → Nat → σ → Int × σ) (userdata : σ)
    (hwf : WellFormed aarray) :
    ∃ ret final calls,
      aaIterateAction aarray userfunction userdata = Outcome.ok (ret, final, calls) ∧
      (ret, final, calls) = callUntilNegative userfunction (usedInvocations aarray.table) userdata ∧
      calls <+: usedInvocations aarray.table ∧
      (ret = 1 ∨ ret = -1) ∧
      (ret = 1 → calls = usedInvocations aarray.table) := by
  obtain ⟨h1, h2, h3⟩ :=
    callUntilNegative_prefix userfunction (usedInvocations aarray.table) userdata
  refine ⟨_, _, _, ?_, rfl, h1, h2, h3⟩
  unfold aaIterateAction
  have := aaIterateActionLoop_eq aarray userfunction aarray.size 0 userdata []
    (by rw [hwf.2]; simp)
  simpa using this

/-- C9 at the table with 3 used slots, 1 tombstone and 1 empty slot: a user function that
never fails is called exactly 3 times, on the used slots in slot order, and one that
fails on the second used slot is called exactly twice. -/
theorem aaIterateAction_spec_witness :
    WellFormed mixedTable ∧
    aaIterateAction mixedTable countCalls 0 =
      Outcome.ok (1, 3, [{ key := [98], keylen := 1, datavalue := 20 },
                         { key := [97], keylen := 1, datavalue := 10 },
                         { key := [101], keylen := 1, datavalue := 50 }]) ∧
    aaIterateAction mixedTable stopAtTen 0 =
      Outcome.ok (-1, 2, [{ key := [98], keylen := 1, datavalue := 20 },
                          { key := [97], keylen := 1, datavalue := 10 }]) ∧
    ∃ ret final calls,
      aaIterateAction mixedTable countCalls 0 = Outcome.ok (ret, final, calls) ∧
      (ret, final, calls) = callUntilNegative countCalls (usedInvocations mixedTable.table) 0 ∧
      calls <+: usedInvocations mixedTable.table ∧
      (ret = 1 ∨ ret = -1) ∧
      (ret = 1 → calls = usedInvocations mixedTable.table) :=
  ⟨by decide, rfl, rfl, aaIterateAction_spec mixedTable countCalls 0 (by decide)⟩

/-- C10 (termination of delete), evaluated: the table of size 2 filled by two inserts is
well formed with every slot `HASH_USED`; `aaDelete` of the absent key "c" walks the two
slots round and round and returns for no amount of fuel. -/
theorem aaDelete_never_returns_on_full_table :
    (∃ t0 t1,
      aaCreateAssociativeArray smallPrimes 1 "linear" "len" "sum" = some t0 ∧
      aaInsert 32 2 t0 keyA 1 1 = Outcome.ok (1, t1) ∧
      aaInsert 32 2 t1 keyB 1 2 = Outcome.ok (0, fullTable)) ∧
    WellFormed fullTable ∧ usedCount fullTable.table = fullTable.size ∧
    ∀ fuel : Nat, aaDelete 32 fuel fullTable keyC 1 = Outcome.outOfFuel :=
  ⟨⟨_, _, rfl, rfl, rfl⟩, by decide, by decide,
    fun fuel => fullTable_deleteLoop_outOfFuel fuel 1 0 (Or.inr rfl)⟩

/-- C12 (cost monotonicity), with the condition that no counter overflows: along every
returning sequence of `aaInsert`, `aaLookup` and `aaDelete` calls on a well-formed table
whose counters are valid `int`s, the steps added to the three counters, as `int`
additions, are together at most `size` per call; so each of `insertCost`, `searchCost`
and `deleteCost` that leaves room for `size` steps per call below `INT_MAX` is not lowered;
and a single call leaves the two counters of the other kinds unchanged. -/
theorem cost_monotone_without_overflow (w fuel : Nat) (aarray t1 : AssociativeArray)
    (ops : List Operation) (hwf : WellFormed aarray) (hrange : CostsInRange aarray)
    (h : runOperations w fuel aarray ops = Outcome.ok t1) :
    (∃ i s d : Nat, i + s + d ≤ ops.length * aarray.size ∧
      t1.insertCost = intAdd aarray.insertCost (i : Int) ∧
      t1.searchCost = intAdd aarray.searchCost (s : Int) ∧
      t1.deleteCost = intAdd aarray.deleteCost (d : Int)) ∧
    ((aarray.insertCost + ((ops.length * aarray.size : Nat) : Int) ≤ INT_MAX →
        aarray.insertCost ≤ t1.insertCost) ∧
      (aarray.searchCost + ((ops.length * aarray.size : Nat) : Int) ≤ INT_MAX →
        aarray.searchCost ≤ t1.searchCost) ∧
      (aarray.deleteCost + ((ops.length * aarray.size : Nat) : Int) ≤ INT_MAX →
        aarray.deleteCost ≤ t1.deleteCost)) ∧
    (∀ op : Operation, ops = [op] → foreignCostsKept op aarray t1) := by
  obtain ⟨i, s, d, hb, hi, hs, hd⟩ := runOperations_steps w fuel ops aarray t1 hwf hrange h
  obtain ⟨⟨hi1, _⟩, ⟨hs1, _⟩, ⟨hd1, _⟩⟩ := hrange
  have hbi : ((i : Nat) : Int) ≤ ((ops.length * aarray.size : Nat) : Int) := by
    exact_mod_cast (by omega : i ≤ ops.length * aarray.size)
  have hbs : ((s : Nat) : Int) ≤ ((ops.length * aarray.size : Nat) : Int) := by
    exact_mod_cast (by omega : s ≤ ops.length * aarray.size)
  have hbd : ((d : Nat) : Int) ≤ ((ops.length * aarray.size : Nat) : Int) := by
    exact_mod_cast (by omega : d ≤ ops.length * aarray.size)
  refine ⟨⟨i, s, d, hb, hi, hs, hd⟩, ⟨?_, ?_, ?_⟩, ?_⟩
  · intro hroom
    rw [hi, intAdd_exact (by omega) (by omega)]
    omega
  · intro hroom
    rw [hs, intAdd_exact (by omega) (by omega)]
    omega
  · intro hroom
    rw [hd, intAdd_exact (by omega) (by omega)]
    omega
  · intro op hop
    subst hop
    simp only [runOperations] at h
    split at h
    · rename_i t2 h2
      injection h with h
      rw [← h]
      exact (applyOperation_step w fuel aarray t2 op hwf ⟨⟨hi1, by assumption⟩,
        ⟨hs1, by assumption⟩, ⟨hd1, by assumption⟩⟩ h2).2.2.2.1
    · exact Outcome.noConfusion h
    · exact Outcome.noConfusion h

/-- C12 with the no-overflow condition, at the table that holds "a" twice: a lookup of
"a" adds 1 to `searchCost`, which is not lowered, and leaves the other two counters
alone. -/
theorem cost_monotone_without_overflow_witness :
    (WellFormed twiceATable ∧ CostsInRange twiceATable ∧
      runOperations 32 2 twiceATable [Operation.lookup keyA 1] =
        Outcome.ok { twiceATable with searchCost := 1 }) ∧
    twiceATable.searchCost ≤ ({ twiceATable with searchCost := 1 }).searchCost ∧
    foreignCostsKept (Operation.lookup keyA 1) twiceATable { twiceATable with searchCost := 1 } :=
  ⟨⟨by decide, by decide, rfl⟩,
    (cost_monotone_without_overflow 32 2 twiceATable { twiceATable with searchCost := 1 }
      [Operation.lookup keyA 1] (by decide) (by decide) rfl).2.1.2.1 (by decide),
    (cost_monotone_without_overflow 32 2 twiceATable { twiceATable with searchCost := 1 }
      [Operation.lookup keyA 1] (by decide) (by decide) rfl).2.2 _ rfl⟩

/-- C12 as stated fails where a counter overflows. In the full table of size 2 with
`searchCost` at `INT_MAX`, a well-formed state with valid `int` counters, the lookup of the
absent key "c" adds 2 and leaves `searchCost` at `INT_MIN + 1`, below its value before.
Such a drop is reached from the freshly created table of size 2 by lookups alone: after
2^30 lookups of "c", each a miss that adds 2, `searchCost` is `INT_MIN`, below the 0 it
started from. -/
theorem cost_drops_on_overflow :
    (WellFormed fullTableAtMax ∧ CostsInRange fullTableAtMax ∧
      runOperations 32 0 fullTableAtMax [Operation.lookup keyC 1] =
        Outcome.ok { fullTableAtMax with searchCost := -2147483647 } ∧
      ¬ (fullTableAtMax.searchCost ≤
          ({ fullTableAtMax with searchCost := -2147483647 }).searchCost)) ∧
    (aaCreateAssociativeArray smallPrimes 1 "linear" "len" "sum" = some freshTable ∧
      runOperations 32 0 freshTable (List.replicate 1073741824 (Operation.lookup keyC 1)) =
        Outcome.ok { freshTable with searchCost := -2147483648 } ∧
      ¬ (freshTable.searchCost ≤ ({ freshTable with searchCost := -2147483648 }).searchCost)) :=
  ⟨⟨by decide, by decide, rfl, by decide⟩,
    rfl,
    runOperations_lookup_misses 32 0 freshTable keyC 1 zeroSlot (by decide) rfl rfl
      1073741824 0 (by decide) (by decide),
    by decide⟩

/-- C13 (linear probe result): in a well-formed table of size `n`, from a start index
`s` in `[0, n)` and with either value of the tombstone flag, `linearProbe` returns
`(s + d) mod n` for the least offset `d` in `[0, n)` whose slot is not `HASH_USED`, having
added exactly `d` to the cost counter and read the slots at offsets `0 .. d`; when every
slot is `HASH_USED` it returns `-1` having added `n`; and it returns `-1` only when every
slot is `HASH_USED`. -/
theorem linearProbe_result (fuel : Nat) (hashTable : AssociativeArray) (key : AAKeyType)
    (keylength : Nat) (s : Nat) (invalidEndsSearch : Bool) (cost : Nat)
    (hwf : WellFormed hashTable) (hs : s < hashTable.size) (hfuel : hashTable.size ≤ fuel) :
    (∀ d, d < hashTable.size →
      isUsed hashTable.table ((s + d) % hashTable.size) = false →
      (∀ j, j < d → isUsed hashTable.table ((s + j) % hashTable.size) = true) →
      linearProbe fuel hashTable key keylength (s : Int) invalidEndsSearch cost =
        Outcome.ok
          { index := (((s + d) % hashTable.size : Nat) : Int)
            cost := cost + d
            visited := (List.range' 0 (d + 1)).map
              (fun j => (((s + j) % hashTable.size : Nat) : Int)) }) ∧
    ((∀ i, i < hashTable.size → isUsed hashTable.table i = true) →
      ∃ r, linearProbe fuel hashTable key keylength (s : Int) invalidEndsSearch cost =
          Outcome.ok r ∧ r.index = -1 ∧ r.cost = cost + hashTable.size) ∧
    (∀ r, linearProbe fuel hashTable key keylength (s : Int) invalidEndsSearch cost =
        Outcome.ok r → r.index = -1 →
      ∀ i, i < hashTable.size → isUsed hashTable.table i = true) := by
  have h0 : (s + 0) % hashTable.size = s := by rw [Nat.add_zero, Nat.mod_eq_of_lt hs]
  have hpos : ∀ j, (s + j) % hashTable.size < hashTable.size :=
    fun j => Nat.mod_lt _ (by omega)
  unfold linearProbe
  refine ⟨?_, ?_, ?_⟩
  · intro d hd hfree hused
    have h := linearProbeLoop_find hashTable invalidEndsSearch s d hwf hs hd hfree fuel 0 cost []
      (Nat.zero_le _) (by omega) (fun j _ hj => hused j hj)
    rw [h0] at h
    rw [h]
    simp
  · intro hall
    have h := linearProbeLoop_none hashTable invalidEndsSearch s hs fuel 0 cost []
      (by omega) (by omega) (fun j _ _ => hall _ (hpos j))
    rw [h0] at h
    exact ⟨_, h, rfl, rfl⟩
  · intro r hr hneg i hi
    obtain ⟨j, hj, hji⟩ := exists_offset hs hi
    have h := linearProbeLoop_full hashTable invalidEndsSearch s hwf hs fuel 0 cost [] r
      (by omega) (by rw [h0]; exact hr) hneg j (Nat.zero_le _) hj
    rw [hji] at h
    exact h

/-- C13 at the table with three used slots, a tombstone and an empty slot, from start
index 4: slots 4 and 0 are in use, the tombstone in slot 1 is the first slot not in use,
and the probe returns 1 with cost 2. -/
theorem linearProbe_result_witness :
    WellFormed mixedTable ∧
    linearProbe 5 mixedTable keyA 1 4 false 0 =
      Outcome.ok { index := 1, cost := 2, visited := [4, 0, 1] } :=
  ⟨by decide,
    (linearProbe_result 5 mixedTable keyA 1 4 false 0 (by decide) (by decide) (by decide)).1 2
      (by decide) (by decide) (by decide)⟩

/-- C14 (quadratic probe result): in a well-formed table of size `n`, from a start index
`s`, `quadraticProbe` returns `(s + i*i) mod n` for the least `i` in `1 .. n` whose slot
is `HASH_EMPTY` or `HASH_DELETED`, having read exactly the slots of the rounds `1 .. i`,
and returns `-1` if there is no such `i`. Round 0 is never read: in the fresh table of
size 11 the start slot 3 is empty and the probe from 3 reads only slot 4 and returns it. -/
theorem quadraticProbe_result (hashTable : AssociativeArray) (key : AAKeyType) (keylen : Nat)
    (s : Nat) (invalidEndsSearch : Bool) (cost : Nat) (hwf : WellFormed hashTable) :
    (∀ i, 1 ≤ i → i ≤ hashTable.size →
      isFree hashTable.table ((s + i * i) % hashTable.size) = true →
      (∀ j, 1 ≤ j → j < i → isFree hashTable.table ((s + j * j) % hashTable.size) = false) →
      quadraticProbe hashTable key keylen (s : Int) invalidEndsSearch cost =
        Outcome.ok
          { index := (((s + i * i) % hashTable.size : Nat) : Int)
            cost := cost + (i - 1)
            visited := (List.range' 1 i).map
              (fun j => (((s + j * j) % hashTable.size : Nat) : Int)) }) ∧
    ((∀ j, 1 ≤ j → j ≤ hashTable.size →
        isFree hashTable.table ((s + j * j) % hashTable.size) = false) →
      ∃ r, quadraticProbe hashTable key keylen (s : Int) invalidEndsSearch cost = Outcome.ok r ∧
        r.index = -1) ∧
    (∃ t0, aaCreateAssociativeArray smallPrimes 10 "quadratic" "len" "sum" = some t0 ∧
      isFree t0.table 3 = true ∧
      quadraticProbe t0 keyCat 3 3 false 0 =
        Outcome.ok { index := 4, cost := 0, visited := [4] }) := by
  unfold quadraticProbe
  refine ⟨?_, ?_, ⟨_, rfl, by decide, rfl⟩⟩
  · intro i hi1 hin hfree hbusy
    have h := quadraticProbeLoop_find hashTable s i hwf hfree hashTable.size 0 cost []
      (by omega) (by omega) (fun j hj1 hj2 => hbusy j (by omega) hj2)
    rw [show ((0 : Nat) : Int) = 0 from rfl] at h
    rw [h]
    simp
  · intro hbusy
    have h := quadraticProbeLoop_none hashTable s hwf hashTable.size 0 cost []
      (fun j hj1 hj2 => hbusy j (by omega) (by omega))
    rw [show ((0 : Nat) : Int) = 0 from rfl] at h
    exact ⟨_, h, rfl⟩

/-- C14 at the table with three used slots, a tombstone and an empty slot, from start
index 0: round 1 lands on the tombstone in slot 1, which is returned. From start index 1
the rounds 1 to 4 land on slots 2, 0, 0 and 2, all in use, and round 5 lands on the
tombstone in slot 1. -/
theorem quadraticProbe_result_witness :
    WellFormed mixedTable ∧
    quadraticProbe mixedTable keyA 1 0 false 0 =
      Outcome.ok { index := 1, cost := 0, visited := [1] } ∧
    quadraticProbe mixedTable keyA 1 1 false 0 =
      Outcome.ok { index := 1, cost := 4, visited := [2, 0, 0, 2, 1] } :=
  ⟨by decide,
    (quadraticProbe_result mixedTable keyA 1 0 false 0 (by decide)).1 1
      (by decide) (by decide) (by decide) (by decide),
    (quadraticProbe_result mixedTable keyA 1 1 false 0 (by decide)).1 5
      (by decide) (by decide) (by decide) (by decide)⟩

/-- C15 (quadratic placement scenario), evaluated: in the fresh table of size 11 with
quadratic probing and length hash, "cat" and "dog" share the primary index 3. The first
`aaInsert` skips the empty home slot and puts "cat" in slot 4, and the second one puts
"dog" in slot 7, which is `(start + 4) mod size` and not `(start + 1) mod size`. -/
theorem quadratic_second_key_at_offset_four :
    ∃ t0 t1 t2,
      aaCreateAssociativeArray smallPrimes 10 "quadratic" "len" "sum" = some t0 ∧
      applyHash 32 t0.hashAlgorithmPrimary keyCat 3 t0.size = 3 ∧
      applyHash 32 t0.hashAlgorithmPrimary keyDog 3 t0.size = 3 ∧
      aaInsert 32 11 t0 keyCat 3 1 = Outcome.ok (4, t1) ∧
      aaInsert 32 11 t1 keyDog 3 2 = Outcome.ok (7, t2) ∧
      isUsed t2.table 3 = false ∧ isUsed t2.table 4 = true ∧ isUsed t2.table 7 = true :=
  ⟨_, _, _, rfl, rfl, rfl, rfl, rfl, by decide, by decide, by decide⟩

/-- C16 (double-hash probe sequence): in a well-formed table of size `n`, from a start
index `s` in `[0, n)`, with `stepSize` the secondary hash of the key and either value of
the tombstone flag, `doubleHashProbe` returns `(s + k * stepSize) mod n` for the least `k`
in `[0, n)` whose slot is not `HASH_USED`, having added exactly `k` to the cost counter
and read the positions `0 .. k` of the sequence; and it returns `-1` when all `n`
positions of the sequence are `HASH_USED`. -/
theorem doubleHashProbe_result (w : Nat) (hashTable : AssociativeArray) (key : AAKeyType)
    (keylen : Nat) (s stepSize : Nat) (invalidEndsSearch : Bool) (cost : Nat)
    (hwf : WellFormed hashTable) (hs : s < hashTable.size)
    (hstep : applyHash w hashTable.hashAlgorithmSecondary key keylen hashTable.size = stepSize) :
    (∀ k, k < hashTable.size →
      isUsed hashTable.table ((s + k * stepSize) % hashTable.size) = false →
      (∀ j, j < k → isUsed hashTable.table ((s + j * stepSize) % hashTable.size) = true) →
      doubleHashProbe w hashTable key keylen (s : Int) invalidEndsSearch cost =
        Outcome.ok
          { index := (((s + k * stepSize) % hashTable.size : Nat) : Int)
            cost := cost + k
            visited := (List.range' 0 (k + 1)).map
              (fun j => (((s + j * stepSize) % hashTable.size : Nat) : Int)) }) ∧
    ((∀ j, j < hashTable.size →
        isUsed hashTable.table ((s + j * stepSize) % hashTable.size) = true) →
      doubleHashProbe w hashTable key keylen (s : Int) invalidEndsSearch cost =
        Outcome.ok
          { index := -1
            cost := cost + hashTable.size
            visited := (List.range' 0 hashTable.size).map
              (fun j => (((s + j * stepSize) % hashTable.size : Nat) : Int)) }) := by
  have h0 : (s + 0 * stepSize) % hashTable.size = s := by
    rw [Nat.zero_mul, Nat.add_zero, Nat.mod_eq_of_lt hs]
  unfold doubleHashProbe
  simp only [hstep]
  refine ⟨?_, ?_⟩
  · intro k hk hfree hused
    have h := doubleHashProbeLoop_find hashTable invalidEndsSearch s stepSize k hwf hfree
      hashTable.size 0 cost [] (Nat.zero_le _) (by omega) (fun j _ hj => hused j hj)
    rw [h0] at h
    rw [h]
    simp
  · intro hused
    have h := doubleHashProbeLoop_none hashTable invalidEndsSearch s stepSize
      hashTable.size 0 cost [] (fun j _ hj => hused j (by omega))
    rw [h0] at h
    rw [h]
    simp

/-- C16 with step 3: in the table of size 11 whose slots 1, 4 and 7 are in use, the key
"cat" has secondary hash 3, and the probe from start index 1 reads slots 1, 4, 7 and 10
and returns 10 with cost 3. -/
theorem doubleHashProbe_result_witness :
    WellFormed stepThreeTable ∧
    applyHash 32 stepThreeTable.hashAlgorithmSecondary keyCat 3 stepThreeTable.size = 3 ∧
    doubleHashProbe 32 stepThreeTable keyCat 3 1 false 0 =
      Outcome.ok { index := 10, cost := 3, visited := [1, 4, 7, 10] } :=
  ⟨by decide, rfl,
    (doubleHashProbe_result 32 stepThreeTable keyCat 3 1 3 false 0 (by decide) (by decide)
      rfl).1 3 (by decide) (by decide) (by decide)⟩

/-- C17 (strict mode), evaluated: the tombstone flag has no effect on `linearProbe` and
`doubleHashProbe`, whose test for a slot not in use comes first. In the table whose slot
0 is in use and whose slot 1 is a tombstone, both probes called from start index 0 with
the flag set return the index 1 of the tombstone, not `-1`. -/
theorem strict_mode_returns_tombstone :
    (∀ (fuel : Nat) (hashTable : AssociativeArray) (key : AAKeyType) (keylength : Nat)
        (index : Int) (cost : Nat),
      linearProbe fuel hashTable key keylength index true cost =
        linearProbe fuel hashTable key keylength index false cost) ∧
    (∀ (w : Nat) (hashTable : AssociativeArray) (key : AAKeyType) (keylen : Nat)
        (startIndex : Int) (cost : Nat),
      doubleHashProbe w hashTable key keylen startIndex true cost =
        doubleHashProbe w hashTable key keylen startIndex false cost) ∧
    isUsed mixedTable.table 0 = true ∧
    (slotAt mixedTable.table 1).map (fun slot => slot.validity) = some Validity.HASH_DELETED ∧
    linearProbe 5 mixedTable [101] 1 0 true 0 =
      Outcome.ok { index := 1, cost := 1, visited := [0, 1] } ∧
    applyHash 32 mixedTable.hashAlgorithmSecondary [101] 1 mixedTable.size = 1 ∧
    doubleHashProbe 32 mixedTable [101] 1 0 true 0 =
      Outcome.ok { index := 1, cost := 1, visited := [0, 1] } :=
  ⟨fun fuel hashTable _ _ index cost => linearProbeLoop_flag hashTable index fuel index cost [],
    fun _ hashTable _ _ startIndex cost =>
      doubleHashProbeLoop_flag hashTable _ hashTable.size startIndex cost [],
    by decide, rfl, rfl, rfl, rfl⟩

/-- C18 (polynomial hash definition): for an index type wide enough to hold the seed
4099, `newHash` returns `acc mod size`, where `acc` starts at 4099 and takes in each of
the first `keyLength` key bytes `b` as `(acc * 33 + 2 * b) mod 2 ^ w`; the shift form of
the loop body equals `acc * 33 + 2 * b` under that wraparound. -/
theorem newHash_polynomial (w : Nat) (key : AAKeyType) (keyLength size : Nat)
    (hw : 4099 < 2 ^ w) :
    newHash w key keyLength size = polynomialAccumulator w (keyBytes key keyLength) % size ∧
    (keyLength = key.length → newHash w key keyLength size = polynomialAccumulator w key % size) ∧
    (∀ acc b : Nat, newHashStep w acc b = (acc * 33 + 2 * b) % 2 ^ w) := by
  have hmain : newHash w key keyLength size =
      polynomialAccumulator w (keyBytes key keyLength) % size := by
    unfold newHash polynomialAccumulator keyBytes
    rw [List.foldl_map, Nat.mod_eq_of_lt hw]
    congr 1
    apply List.foldl_ext
    intro acc i _
    exact newHashStep_eq w acc _
  refine ⟨hmain, ?_, newHashStep_eq w⟩
  intro hlen
  rw [hmain, hlen, keyBytes_full]

/-- C18 at the key "cat" with a 32-bit index type and size 11. -/
theorem newHash_polynomial_witness :
    4099 < 2 ^ 32 ∧
    newHash 32 keyCat 3 11 = polynomialAccumulator 32 keyCat % 11 ∧
    polynomialAccumulator 32 keyCat = ((4099 * 33 + 2 * 99) * 33 + 2 * 97) * 33 + 2 * 116 :=
  ⟨by decide, (newHash_polynomial 32 keyCat 3 11 (by decide)).2.1 rfl, by decide⟩

/-- C19 (delete searches past tombstones), evaluated: in the fresh table of size 11 with
linear probing and length hash, "cat" and "dog" share the primary index 3 and are stored
in slots 3 and 4. `aaDelete` of "cat" returns 1; `aaDelete` of "dog" then stops at the
tombstone in slot 3 and returns `NULL`, and "dog" is still stored in a `HASH_USED` slot. -/
theorem delete_stops_at_tombstone :
    ∃ t0 t1 t2 t3 t4,
      aaCreateAssociativeArray smallPrimes 10 "linear" "len" "sum" = some t0 ∧
      applyHash 32 t0.hashAlgorithmPrimary keyCat 3 t0.size = 3 ∧
      applyHash 32 t0.hashAlgorithmPrimary keyDog 3 t0.size = 3 ∧
      aaInsert 32 11 t0 keyCat 3 1 = Outcome.ok (3, t1) ∧
      aaInsert 32 11 t1 keyDog 3 2 = Outcome.ok (4, t2) ∧
      aaDelete 32 11 t2 keyCat 3 = Outcome.ok (1, t3) ∧
      aaDelete 32 11 t3 keyDog 3 = Outcome.ok (0, t4) ∧
      usedCopies t4.table keyDog 3 = 1 :=
  ⟨_, _, _, _, _, rfl, rfl, rfl, rfl, rfl, rfl, rfl, by decide⟩

/-- C21 (double-hash coverage): in a well-formed table of size `n`, from a start index in
`[0, n)`, with `stepSize` the secondary hash of the key and either value of the tombstone
flag: if `n` is prime and `stepSize` is not 0 (it is below `n` as a hash value),
`doubleHashProbe` returns `-1` if and only if every slot of the table is `HASH_USED`, the
`n` probed positions being pairwise distinct and reaching every slot; and if `stepSize`
is 0 and the start slot is `HASH_USED`, it returns `-1` whatever the other slots hold. -/
theorem doubleHashProbe_coverage (w : Nat) (hashTable : AssociativeArray) (key : AAKeyType)
    (keylen : Nat) (s stepSize : Nat) (invalidEndsSearch : Bool) (cost : Nat)
    (hwf : WellFormed hashTable) (hs : s < hashTable.size)
    (hstep : applyHash w hashTable.hashAlgorithmSecondary key keylen hashTable.size = stepSize) :
    (Nat.Prime hashTable.size → 0 < stepSize →
      ((∃ r, doubleHashProbe w hashTable key keylen (s : Int) invalidEndsSearch cost =
            Outcome.ok r ∧ r.index = -1) ↔
        ∀ i, i < hashTable.size → isUsed hashTable.table i = true) ∧
      (∀ j k, j < hashTable.size → k < hashTable.size →
        (s + j * stepSize) % hashTable.size = (s + k * stepSize) % hashTable.size → j = k) ∧
      (∀ i, i < hashTable.size →
        ∃ k, k < hashTable.size ∧ (s + k * stepSize) % hashTable.size = i)) ∧
    (stepSize = 0 → isUsed hashTable.table s = true →
      ∃ r, doubleHashProbe w hashTable key keylen (s : Int) invalidEndsSearch cost =
          Outcome.ok r ∧ r.index = -1) := by
  have hsz : 0 < hashTable.size := hwf.1
  have hlt : stepSize < hashTable.size := by
    rw [← hstep]; exact applyHash_lt w _ key keylen _ hsz
  have h0 : (s + 0 * stepSize) % hashTable.size = s := by
    rw [Nat.zero_mul, Nat.add_zero, Nat.mod_eq_of_lt hs]
  have hrun : doubleHashProbe w hashTable key keylen (s : Int) invalidEndsSearch cost =
      doubleHashProbeLoop hashTable invalidEndsSearch stepSize hashTable.size
        (((s + 0 * stepSize) % hashTable.size : Nat) : Int) cost [] := by
    unfold doubleHashProbe
    simp only [hstep, h0]
  have hnone : (∀ j, j < hashTable.size →
        isUsed hashTable.table ((s + j * stepSize) % hashTable.size) = true) →
      ∃ r, doubleHashProbe w hashTable key keylen (s : Int) invalidEndsSearch cost =
          Outcome.ok r ∧ r.index = -1 := by
    intro hused
    rw [hrun, doubleHashProbeLoop_none hashTable invalidEndsSearch s stepSize
      hashTable.size 0 cost [] (fun j _ hj => hused j (by omega))]
    exact ⟨_, rfl, rfl⟩
  refine ⟨?_, ?_⟩
  · intro hprime hpos
    refine ⟨⟨?_, ?_⟩, ?_, ?_⟩
    · rintro ⟨r, hr, hneg⟩ i hi
      obtain ⟨k, hk, hki⟩ :
          ∃ k, k < hashTable.size ∧ (s + k * stepSize) % hashTable.size = i :=
        step_position_surjective hprime hpos hlt i hi
      rw [hrun] at hr
      have h := doubleHashProbeLoop_full hashTable invalidEndsSearch s stepSize hwf
        hashTable.size 0 cost [] r hr hneg k (Nat.zero_le _) (by omega)
      rw [hki] at h
      exact h
    · intro hall
      exact hnone (fun j _ => hall _ (Nat.mod_lt _ hsz))
    · intro j k hj hk h
      exact step_position_injective hprime hpos hlt hj hk h
    · intro i hi
      exact step_position_surjective hprime hpos hlt i hi
  · intro hzero hused
    apply hnone
    intro j _
    rw [hzero, Nat.mul_zero, Nat.add_zero, Nat.mod_eq_of_lt hs]
    exact hused

/-- C21 in the table of size 11 whose slots 1, 4 and 7 alone are in use. With the key
"cat", whose secondary hash is 3, the probe from start index 1 returns `-1` exactly if
every slot is in use, and here it returns slot 10. With the empty key, whose secondary
hash is 0, the probe from the used slot 1 reads that slot 11 times and returns `-1`
although 8 slots are free. -/
theorem doubleHashProbe_coverage_witness :
    (WellFormed stepThreeTable ∧ Nat.Prime stepThreeTable.size ∧
      applyHash 32 stepThreeTable.hashAlgorithmSecondary keyCat 3 stepThreeTable.size = 3 ∧
      applyHash 32 stepThreeTable.hashAlgorithmSecondary [] 0 stepThreeTable.size = 0) ∧
    (((∃ r, doubleHashProbe 32 stepThreeTable keyCat 3 1 false 0 = Outcome.ok r ∧
          r.index = -1) ↔
        ∀ i, i < stepThreeTable.size → isUsed stepThreeTable.table i = true) ∧
      doubleHashProbe 32 stepThreeTable keyCat 3 1 false 0 =
        Outcome.ok { index := 10, cost := 3, visited := [1, 4, 7, 10] }) ∧
    ((∃ r, doubleHashProbe 32 stepThreeTable [] 0 1 false 0 = Outcome.ok r ∧ r.index = -1) ∧
      doubleHashProbe 32 stepThreeTable [] 0 1 false 0 =
        Outcome.ok { index := -1, cost := 11, visited := [1, 1, 1, 1, 1, 1, 1, 1, 1, 1, 1] } ∧
      usedCount stepThreeTable.table = 3) :=
  ⟨⟨by decide, by norm_num [stepThreeTable], rfl, rfl⟩,
    ⟨((doubleHashProbe_coverage 32 stepThreeTable keyCat 3 1 3 false 0 (by decide) (by decide)
        rfl).1 (by norm_num [stepThreeTable]) (by decide)).1, rfl⟩,
    ⟨(doubleHashProbe_coverage 32 stepThreeTable [] 0 1 0 false 0 (by decide) (by decide)
        rfl).2 rfl (by decide), rfl, by decide⟩⟩

end AALib
